import Mathlib

/-!
Verification development for the File_tool image pipeline.

The definitions below are shallow embeddings of the Python sources:
  * `src/app/stages/dedupe.py` and the near-identical `_dedupe_stage` of
    `src/图片工具.py` (perceptual-hash duplicate grouping and keeper choice),
  * `src/app/utils.py` / `src/图片工具.py` `next_non_conflict`,
  * `src/图片工具.py` `_remove_source_files`, `_ensure_cache_dir`,
    `_copy_input_to_cache`, `_ratio_classify_stage`, `_convert_stage_only`,
    `_rename_stage_only` / `_process_rename_file`, `_simulate_delete`,
    `_pipeline` (the preview transaction built on the `.preview_cache`
    shadow workspace),
  * `src/app/stages/classify.py`, `convert.py`, `rename.py` and the modular
    driver `src/app/main_app.py` `_run`.

Machine integers are modelled as `Nat`/`Int`; the two perceptual hashes are
the (≤ 64-bit) natural numbers the Python code computes with them.  File
modification times (Python floats) are modelled as `Int`: only their total
order is ever used by the code under verification.  External collaborators
(the PIL image codec, UI variables) appear as explicit function parameters
("oracles"): a decode oracle stands for `Image.open`, a naming oracle for
the pure pattern-substitution block of the rename stages, and so on.  The
file system is a map from component lists (absolute, normalised paths) to
entries; `os.path.join` is list append and `os.path.abspath` the identity,
which is faithful for the absolute, already-normalised paths the pipeline
produces.
-/

namespace FileTool

/-! ## Image records and duplicate grouping (dedupe.py lines 7-33, 52-69) -/

/-- `ImgInfo` from `src/app/stages/dedupe.py` line 8: per-image record with
path, byte size, pixel dimensions, the two 64-bit perceptual hashes, and the
modification time. -/
structure Rec where
  path : List String
  size : Nat
  w : Nat
  h : Nat
  ah : Nat
  dh : Nat
  mtime : Int
  deriving DecidableEq, Repr

instance : Inhabited Rec := ⟨⟨[], 0, 0, 0, 0, 0, 0⟩⟩

/-- `res` property of `ImgInfo` (dedupe.py line 11): pixel count `w*h`. -/
def Rec.res (r : Rec) : Nat := r.w * r.h

/-- Number of set bits; used by `hamming` (dedupe.py line 32). -/
def bitCount : Nat → Nat
  | 0 => 0
  | n + 1 => (n + 1) % 2 + bitCount ((n + 1) / 2)
decreasing_by exact Nat.div_lt_self (Nat.succ_pos n) (by omega)

/-- `hamming(a,b) = (a^b).bit_count()` (dedupe.py lines 32-33). -/
def hamming (a b : Nat) : Nat := bitCount (a ^^^ b)

/-- The per-group acceptance test of the grouping loop (dedupe.py lines
57-60): with threshold `0` exact equality of both hashes against the group
representative, otherwise combined hamming distance at most the threshold. -/
def closeTo (th : Nat) (rep r : Rec) : Bool :=
  if th = 0 then r.ah == rep.ah && r.dh == rep.dh
  else hamming r.ah rep.ah + hamming r.dh rep.dh ≤ th

/-- One step of the grouping loop (dedupe.py lines 54-61): scan the existing
groups in creation order, compare only against each group's first-inserted
member `g[0]`, append to the first accepting group, else start a new group
at the end. -/
def insertRec (th : Nat) : List (List Rec) → Rec → List (List Rec)
  | [], r => [[r]]
  | g :: gs, r =>
    if closeTo th g.headI r then (g ++ [r]) :: gs else g :: insertRec th gs r

/-- The grouping pass (dedupe.py lines 52-61): fold the records in order
through `insertRec`. -/
def groupRecs (th : Nat) (recs : List Rec) : List (List Rec) :=
  recs.foldl (insertRec th) []

/-- Python's `max(xs, key=k)` restricted to a non-empty list `x :: xs`: keep
the current best, replace only on a strictly larger key, so the first
maximum wins ties. -/
def pyMax (key : Rec → Int) (x : Rec) (xs : List Rec) : Rec :=
  xs.foldl (fun b y => if key b < key y then y else b) x

/-- Python's `min(xs, key=k)` on `x :: xs`: first minimum wins ties. -/
def pyMin (key : Rec → Int) (x : Rec) (xs : List Rec) : Rec :=
  xs.foldl (fun b y => if key y < key b then y else b) x

/-- Keeper selection (dedupe.py lines 65-69): dispatch on the keep mode;
any unrecognised mode falls through to `g[0]` like the Python `else`. -/
def keepOf (keepMode : String) (g : List Rec) : Rec :=
  match g with
  | [] => default
  | x :: xs =>
    if keepMode = "largest" then pyMax (fun r => (r.res : Int)) x xs
    else if keepMode = "largest-file" then pyMax (fun r => (r.size : Int)) x xs
    else if keepMode = "newest" then pyMax (fun r => r.mtime) x xs
    else if keepMode = "oldest" then pyMin (fun r => r.mtime) x xs
    else x

/-- Hash-pair equality as a proposition. -/
def HashEq (a b : Rec) : Prop := a.ah = b.ah ∧ a.dh = b.dh

instance (a b : Rec) : Decidable (HashEq a b) := by
  unfold HashEq; infer_instance

lemma hashEq_refl (a : Rec) : HashEq a a := ⟨rfl, rfl⟩

lemma hashEq_symm {a b : Rec} (h : HashEq a b) : HashEq b a := ⟨h.1.symm, h.2.symm⟩

lemma hashEq_trans {a b c : Rec} (h₁ : HashEq a b) (h₂ : HashEq b c) : HashEq a c :=
  ⟨h₁.1.trans h₂.1, h₁.2.trans h₂.2⟩

lemma closeTo_zero_iff (rep r : Rec) : closeTo 0 rep r = true ↔ HashEq r rep := by
  simp [closeTo, HashEq]

lemma headI_append_singleton (g : List Rec) (r : Rec) (hg : g ≠ []) :
    (g ++ [r]).headI = g.headI := by
  cases g with
  | nil => exact absurd rfl hg
  | cons a t => rfl

/-- Groups stay non-empty through one insertion step. -/
lemma insertRec_ne_nil (th : Nat) (gs : List (List Rec)) (r : Rec)
    (hne : ∀ g ∈ gs, g ≠ []) : ∀ g' ∈ insertRec th gs r, g' ≠ [] := by
  induction gs with
  | nil =>
    intro g' hg'
    simp only [insertRec, List.mem_singleton] at hg'
    subst hg'; simp
  | cons a t ih =>
    intro g' hg'
    by_cases hca : closeTo th a.headI r = true
    · simp only [insertRec, hca, if_true, List.mem_cons] at hg'
      rcases hg' with hg' | hg'
      · subst hg'; simp
      · exact hne g' (by simp [hg'])
    · simp only [insertRec, hca, if_false, Bool.false_eq_true, List.mem_cons] at hg'
      rcases hg' with hg' | hg'
      · subst hg'; exact hne g' (by simp)
      · exact ih (fun g hg => hne g (by simp [hg])) g' hg'

/-- After one insertion step every representative is either `r` or an old
representative. -/
lemma insertRec_headI (th : Nat) (gs : List (List Rec)) (r : Rec)
    (hne : ∀ g ∈ gs, g ≠ []) :
    ∀ g' ∈ insertRec th gs r, g'.headI = r ∨ ∃ g₀ ∈ gs, g'.headI = g₀.headI := by
  induction gs with
  | nil =>
    intro g' hg'
    simp only [insertRec, List.mem_singleton] at hg'
    subst hg'; left; rfl
  | cons a t ih =>
    intro g' hg'
    by_cases hca : closeTo th a.headI r = true
    · simp only [insertRec, hca, if_true, List.mem_cons] at hg'
      rcases hg' with hg' | hg'
      · subst hg'
        right
        exact ⟨a, by simp, headI_append_singleton a r (hne a (by simp))⟩
      · right; exact ⟨g', by simp [hg'], rfl⟩
    · simp only [insertRec, hca, if_false, Bool.false_eq_true, List.mem_cons] at hg'
      rcases hg' with hg' | hg'
      · subst hg'; right; exact ⟨g', by simp, rfl⟩
      · rcases ih (fun g hg => hne g (by simp [hg])) g' hg' with h1 | ⟨g₀, hg₀, he⟩
        · left; exact h1
        · right; exact ⟨g₀, by simp [hg₀], he⟩

/-- Invariant of the grouping fold at threshold `0`: every group is
non-empty, all members share the representative's hash pair, and distinct
groups have hash-distinct representatives. -/
def ZeroInv (gs : List (List Rec)) : Prop :=
  (∀ g ∈ gs, g ≠ [] ∧ ∀ r ∈ g, HashEq r g.headI) ∧
    gs.Pairwise (fun g g' => ¬ HashEq g.headI g'.headI)

lemma zeroInv_insert : ∀ (gs : List (List Rec)) (r : Rec), ZeroInv gs →
    ZeroInv (insertRec 0 gs r) := by
  intro gs
  induction gs with
  | nil =>
    intro r _
    refine ⟨?_, ?_⟩
    · intro g hg
      simp only [insertRec, List.mem_singleton] at hg
      subst hg
      refine ⟨by simp, ?_⟩
      intro x hx
      simp only [List.mem_singleton] at hx
      subst hx; exact hashEq_refl _
    · simp [insertRec]
  | cons g gs ih =>
    intro r h
    obtain ⟨hmem, hpw⟩ := h
    have hg := hmem g (by simp)
    have hmem' : ∀ g' ∈ gs, g' ≠ [] ∧ ∀ r' ∈ g', HashEq r' g'.headI :=
      fun g' hg' => hmem g' (by simp [hg'])
    have hpw' := hpw.of_cons
    by_cases hc : closeTo 0 g.headI r = true
    · have hr : HashEq r g.headI := (closeTo_zero_iff g.headI r).mp hc
      constructor
      · intro g' hg'
        simp only [insertRec, hc, if_true, List.mem_cons] at hg'
        rcases hg' with hg' | hg'
        · subst hg'
          refine ⟨by simp, ?_⟩
          intro x hx
          rw [headI_append_singleton g r hg.1]
          rcases List.mem_append.mp hx with hx | hx
          · exact hg.2 x hx
          · simp only [List.mem_singleton] at hx; subst hx; exact hr
        · exact hmem g' (by simp [hg'])
      · simp only [insertRec, hc, if_true]
        rw [List.pairwise_cons] at hpw ⊢
        refine ⟨?_, hpw.2⟩
        intro g' hg'
        rw [headI_append_singleton g r hg.1]
        exact hpw.1 g' hg'
    · have hstep : insertRec 0 (g :: gs) r = g :: insertRec 0 gs r := by
        simp [insertRec, hc]
      have hns : ¬ HashEq r g.headI := fun hcon => hc ((closeTo_zero_iff g.headI r).mpr hcon)
      obtain ⟨ih1, ih2⟩ := ih r ⟨hmem', hpw'⟩
      rw [hstep]
      constructor
      · intro g' hg'
        rcases List.mem_cons.mp hg' with hg' | hg'
        · subst hg'; exact hg
        · exact ih1 g' hg'
      · rw [List.pairwise_cons]
        refine ⟨?_, ih2⟩
        intro g' hg'
        rcases insertRec_headI 0 gs r (fun g₀ hg₀ => (hmem' g₀ hg₀).1) g' hg' with h1 | ⟨g₀, hg₀, he⟩
        · rw [h1]; intro hcon; exact hns (hashEq_symm hcon)
        · rw [he]
          rw [List.pairwise_cons] at hpw
          exact hpw.1 g₀ hg₀

/-- The zero-threshold invariant holds for the whole grouping pass. -/
lemma zeroInv_groupRecs (recs : List Rec) : ZeroInv (groupRecs 0 recs) := by
  suffices h : ∀ gs, ZeroInv gs → ZeroInv (recs.foldl (insertRec 0) gs) by
    exact h [] ⟨by simp, by simp⟩
  induction recs with
  | nil => intro gs h; simpa using h
  | cons r rest ih =>
    intro gs h
    exact ih (insertRec 0 gs r) (zeroInv_insert gs r h)

/-- One insertion step only adds the new record to the multiset of grouped
records. -/
lemma flatten_insertRec (th : Nat) (gs : List (List Rec)) (r : Rec) :
    (insertRec th gs r).flatten.Perm (gs.flatten ++ [r]) := by
  induction gs with
  | nil => simp [insertRec]
  | cons a t ih =>
    by_cases hc : closeTo th a.headI r = true
    · simp only [insertRec, hc, if_true]
      have h1 : ((a ++ [r]) :: t).flatten = a ++ ([r] ++ t.flatten) := by
        simp [List.append_assoc]
      have h2 : (a :: t).flatten ++ [r] = a ++ (t.flatten ++ [r]) := by
        simp [List.append_assoc]
      rw [h1, h2]
      exact List.Perm.append_left a List.perm_append_comm
    · simp only [insertRec, hc, if_false, Bool.false_eq_true]
      have h1 : (a :: insertRec th t r).flatten = a ++ (insertRec th t r).flatten := by simp
      have h2 : (a :: t).flatten ++ [r] = a ++ (t.flatten ++ [r]) := by
        simp [List.append_assoc]
      rw [h1, h2]
      exact List.Perm.append_left a ih

/-- The grouping pass is a left fold: appending one record to the input
runs exactly one more insertion step. -/
lemma groupRecs_append_singleton (th : Nat) (recs : List Rec) (r : Rec) :
    groupRecs th (recs ++ [r]) = insertRec th (groupRecs th recs) r := by
  simp [groupRecs, List.foldl_append]

/-- The records collected in all groups are a permutation of the input. -/
lemma flatten_groupRecs (th : Nat) (recs : List Rec) :
    (groupRecs th recs).flatten.Perm recs := by
  induction recs using List.reverseRecOn with
  | nil => simp [groupRecs]
  | append_singleton l a ih =>
    rw [groupRecs_append_singleton]
    exact (flatten_insertRec th (groupRecs th l) a).trans (ih.append_right [a])

lemma insertRec_sublist (th : Nat) (pre : List Rec) (r : Rec) :
    ∀ gs, (∀ g ∈ gs, g.Sublist pre) →
      ∀ g' ∈ insertRec th gs r, g'.Sublist (pre ++ [r]) := by
  intro gs
  induction gs with
  | nil =>
    intro _ g' hg'
    simp only [insertRec, List.mem_singleton] at hg'
    subst hg'
    exact List.sublist_append_right pre [r]
  | cons a t ih =>
    intro h g' hg'
    by_cases hc : closeTo th a.headI r = true
    · simp only [insertRec, hc, if_true, List.mem_cons] at hg'
      rcases hg' with hg' | hg'
      · subst hg'
        exact (h a (by simp)).append (List.Sublist.refl [r])
      · exact ((h g' (by simp [hg'])).trans (List.sublist_append_left pre [r]))
    · simp only [insertRec, hc, if_false, Bool.false_eq_true, List.mem_cons] at hg'
      rcases hg' with hg' | hg'
      · subst hg'
        exact ((h g' (by simp)).trans (List.sublist_append_left pre [r]))
      · exact ih (fun g hg => h g (by simp [hg])) g' hg'

/-- Each group lists its members in input order: it is a subsequence of the
record list, so its head is its first-inserted member. -/
lemma groupRecs_sublist (th : Nat) (recs : List Rec) :
    ∀ g ∈ groupRecs th recs, g.Sublist recs := by
  suffices h : ∀ (l : List Rec) (gs : List (List Rec)) (pre : List Rec),
      (∀ g ∈ gs, g.Sublist pre) →
      ∀ g ∈ l.foldl (insertRec th) gs, g.Sublist (pre ++ l) by
    intro g hg
    simpa using h recs [] [] (by simp) g hg
  intro l
  induction l with
  | nil => intro gs pre h g hg; simpa using h g hg
  | cons r rest ih =>
    intro gs pre h g hg
    have step := insertRec_sublist th pre r gs h
    have := ih (insertRec th gs r) (pre ++ [r]) step g (by simpa using hg)
    simpa [List.append_assoc] using this

lemma groupRecs_ne_nil (th : Nat) (recs : List Rec) :
    ∀ g ∈ groupRecs th recs, g ≠ [] := by
  suffices h : ∀ (l : List Rec) (gs : List (List Rec)),
      (∀ g ∈ gs, g ≠ []) → ∀ g ∈ l.foldl (insertRec th) gs, g ≠ [] by
    intro g hg
    exact h recs [] (by simp) g hg
  intro l
  induction l with
  | nil => intro gs h g hg; exact h g hg
  | cons r rest ih =>
    intro gs h g hg
    exact ih (insertRec th gs r) (insertRec_ne_nil th gs r h) g hg

/-- `m` is the first element of `g` attaining the maximum of `key` over `g`. -/
def FirstMaxBy (key : Rec → Int) (g : List Rec) (m : Rec) : Prop :=
  (∀ z ∈ g, key z ≤ key m) ∧
    ∃ pre post, g = pre ++ m :: post ∧ ∀ z ∈ pre, key z < key m

/-- `m` is the first element of `g` attaining the minimum of `key` over `g`. -/
def FirstMinBy (key : Rec → Int) (g : List Rec) (m : Rec) : Prop :=
  (∀ z ∈ g, key m ≤ key z) ∧
    ∃ pre post, g = pre ++ m :: post ∧ ∀ z ∈ pre, key m < key z

lemma pyMax_cons (key : Rec → Int) (x y : Rec) (ys : List Rec) :
    pyMax key x (y :: ys) = pyMax key (if key x < key y then y else x) ys := rfl

lemma pyMax_spec (key : Rec → Int) :
    ∀ (xs : List Rec) (x : Rec), FirstMaxBy key (x :: xs) (pyMax key x xs) := by
  intro xs
  induction xs with
  | nil =>
    intro x
    refine ⟨?_, [], [], by simp [pyMax], by simp⟩
    intro z hz
    simp only [List.mem_singleton] at hz
    simp [hz, pyMax]
  | cons y ys ih =>
    intro x
    rw [pyMax_cons]
    by_cases hxy : key x < key y
    · rw [if_pos hxy]
      obtain ⟨hle, pre, post, heq, hlt⟩ := ih y
      have hym : key y ≤ key (pyMax key y ys) := hle y (by simp)
      refine ⟨?_, x :: pre, post, ?_, ?_⟩
      · intro z hz
        rcases List.mem_cons.mp hz with hz | hz
        · subst hz; exact le_of_lt (lt_of_lt_of_le hxy hym)
        · exact hle z hz
      · simp [heq]
      · intro z hz
        rcases List.mem_cons.mp hz with hz | hz
        · subst hz; exact lt_of_lt_of_le hxy hym
        · exact hlt z hz
    · rw [if_neg hxy]
      have hyx : key y ≤ key x := le_of_not_lt hxy
      obtain ⟨hle, pre, post, heq, hlt⟩ := ih x
      cases pre with
      | nil =>
        simp only [List.nil_append] at heq
        injection heq with h1 h2
        have hmx : pyMax key x ys = x := h1.symm
        refine ⟨?_, [], y :: ys, ?_, by simp⟩
        · intro z hz
          rcases List.mem_cons.mp hz with hz | hz
          · subst hz; simp [hmx]
          rcases List.mem_cons.mp hz with hz | hz
          · subst hz; rw [hmx]; exact hyx
          · exact hle z (by simp [hz])
        · rw [hmx]; rfl
      | cons a rest =>
        rw [List.cons_append, List.cons.injEq] at heq
        obtain ⟨hax, hys⟩ := heq
        subst hax
        have hxm : key x < key (pyMax key x ys) := hlt x (by simp)
        refine ⟨?_, x :: y :: rest, post, ?_, ?_⟩
        · intro z hz
          rcases List.mem_cons.mp hz with hz | hz
          · subst hz; exact le_of_lt hxm
          rcases List.mem_cons.mp hz with hz | hz
          · subst hz; exact le_of_lt (lt_of_le_of_lt hyx hxm)
          · exact hle z (by simp [hz])
        · conv_lhs => rw [hys]
          simp
        · intro z hz
          rcases List.mem_cons.mp hz with hz | hz
          · subst hz; exact hxm
          rcases List.mem_cons.mp hz with hz | hz
          · subst hz; exact lt_of_le_of_lt hyx hxm
          · exact hlt z (by simp [hz])

lemma pyMin_eq_pyMax_neg (key : Rec → Int) (x : Rec) (xs : List Rec) :
    pyMin key x xs = pyMax (fun r => -(key r)) x xs := by
  unfold pyMin pyMax
  have hfun : (fun (b y : Rec) => if key y < key b then y else b) =
      fun (b y : Rec) => if -(key b) < -(key y) then y else b := by
    funext b y
    by_cases h : key y < key b
    · rw [if_pos h, if_pos (neg_lt_neg_iff.mpr h)]
    · rw [if_neg h, if_neg (fun hcon => h (neg_lt_neg_iff.mp hcon))]
  rw [hfun]

lemma pyMin_spec (key : Rec → Int) (xs : List Rec) (x : Rec) :
    FirstMinBy key (x :: xs) (pyMin key x xs) := by
  rw [pyMin_eq_pyMax_neg]
  obtain ⟨hle, pre, post, heq, hlt⟩ := pyMax_spec (fun r => -(key r)) xs x
  refine ⟨?_, pre, post, heq, ?_⟩
  · intro z hz
    have := hle z hz
    simpa using this
  · intro z hz
    have := hlt z hz
    simpa using this

lemma pyMax_mem (key : Rec → Int) (x : Rec) (xs : List Rec) :
    pyMax key x xs ∈ x :: xs := by
  obtain ⟨_, pre, post, heq, _⟩ := pyMax_spec key xs x
  rw [heq]
  simp

lemma pyMin_mem (key : Rec → Int) (x : Rec) (xs : List Rec) :
    pyMin key x xs ∈ x :: xs := by
  obtain ⟨_, pre, post, heq, _⟩ := pyMin_spec key xs x
  rw [heq]
  simp

lemma keepOf_mem (strat : String) (x : Rec) (xs : List Rec) :
    keepOf strat (x :: xs) ∈ x :: xs := by
  unfold keepOf
  by_cases h1 : strat = "largest"
  · simp only [h1, if_true]; exact pyMax_mem _ x xs
  by_cases h2 : strat = "largest-file"
  · simp only [h1, h2, if_false, if_true]; exact pyMax_mem _ x xs
  by_cases h3 : strat = "newest"
  · simp only [h1, h2, h3, if_false, if_true]; exact pyMax_mem _ x xs
  by_cases h4 : strat = "oldest"
  · simp only [h1, h2, h3, h4, if_false, if_true]; exact pyMin_mem _ x xs
  · simp only [h1, h2, h3, h4, if_false]; simp

/-- Stable insertion sort by descending group size, modelling Python's
stable `sorted(dup, key=lambda g: -len(g))` (dedupe.py line 64). -/
def insertByLenDesc (g : List Rec) : List (List Rec) → List (List Rec)
  | [] => [g]
  | h :: t => if h.length < g.length then g :: h :: t else h :: insertByLenDesc g t

def sortByLenDesc (gs : List (List Rec)) : List (List Rec) :=
  gs.foldr insertByLenDesc []

/-- The duplicate groups: only groups of size > 1 (dedupe.py line 62). -/
def dupGroups (th : Nat) (recs : List Rec) : List (List Rec) :=
  (groupRecs th recs).filter (fun g => decide (1 < g.length))

/-- Keeper paths per duplicate group, in the processing order of
dedupe.py lines 64-70. -/
def keepersOf (th : Nat) (keepMode : String) (recs : List Rec) : List (List String) :=
  (sortByLenDesc (dupGroups th recs)).map (fun g => (keepOf keepMode g).path)

/-- Sample records used by the concrete witnesses: `recA` and `recB` share
both hashes, `recC` differs in the average hash. -/
def recA : Rec := ⟨["in", "a.png"], 10, 4, 3, 5, 9, 100⟩

def recB : Rec := ⟨["in", "b.png"], 20, 2, 2, 5, 9, 50⟩

def recC : Rec := ⟨["in", "c.png"], 30, 8, 8, 6, 9, 70⟩

/-- C2: for every record list and threshold `0`, the grouping step places
two records in the same group iff their average hashes are equal and their
difference hashes are equal. -/
theorem dedupe_threshold_zero_group_iff_hash_eq
    (recs : List Rec) (g₁ g₂ : List Rec) (r₁ r₂ : Rec)
    (h₁ : g₁ ∈ groupRecs 0 recs) (h₂ : g₂ ∈ groupRecs 0 recs)
    (hm₁ : r₁ ∈ g₁) (hm₂ : r₂ ∈ g₂) :
    (r₁.ah = r₂.ah ∧ r₁.dh = r₂.dh) ↔ g₁ = g₂ := by
  obtain ⟨hmem, hpw⟩ := zeroInv_groupRecs recs
  have e₁ : HashEq r₁ g₁.headI := (hmem g₁ h₁).2 r₁ hm₁
  have e₂ : HashEq r₂ g₂.headI := (hmem g₂ h₂).2 r₂ hm₂
  constructor
  · intro hh
    by_contra hne
    have hsym : Symmetric (fun g g' : List Rec => ¬ HashEq g.headI g'.headI) := by
      intro a b hab hcon
      exact hab (hashEq_symm hcon)
    have hrel := hpw.forall hsym h₁ h₂ hne
    exact hrel (hashEq_trans (hashEq_symm e₁) (hashEq_trans ⟨hh.1, hh.2⟩ e₂))
  · intro he
    subst he
    have h := hashEq_trans e₁ (hashEq_symm e₂)
    exact ⟨h.1, h.2⟩

/-- C2 witness: `recA` and `recB` have equal hashes and the grouping pass on
`[recA, recB, recC]` puts them into the same group. -/
theorem dedupe_threshold_zero_group_iff_hash_eq_witness :
    (recA.ah = recB.ah ∧ recA.dh = recB.dh) ↔
      ([recA, recB] : List Rec) = [recA, recB] := by
  exact dedupe_threshold_zero_group_iff_hash_eq [recA, recB, recC]
    [recA, recB] [recA, recB] recA recB (by decide) (by decide) (by decide) (by decide)

/-- C3: grouping consumes its record list in stable input order (it is the
left fold of the insertion step), the insertion step scans the groups in
creation order and compares only against each group's head, each group
lists members in input order (so its head is its first-inserted member),
and grouping plus keeper selection is a deterministic function of the
record list and the keep strategy. -/
theorem dedupe_grouping_stable_order_deterministic
    (th : Nat) (recs : List Rec) (r : Rec) (g : List Rec) (gs : List (List Rec))
    (keepMode : String) :
    (groupRecs th (recs ++ [r]) = insertRec th (groupRecs th recs) r) ∧
    (insertRec th (g :: gs) r =
      if closeTo th g.headI r then (g ++ [r]) :: gs else g :: insertRec th gs r) ∧
    (∀ g' ∈ groupRecs th recs, g'.Sublist recs) ∧
    (∀ recs' keepMode', recs' = recs → keepMode' = keepMode →
      keepersOf th keepMode' recs' = keepersOf th keepMode recs ∧
      groupRecs th recs' = groupRecs th recs) := by
  refine ⟨groupRecs_append_singleton th recs r, rfl, groupRecs_sublist th recs, ?_⟩
  intro recs' k' h1 h2
  subst h1
  subst h2
  exact ⟨rfl, rfl⟩

/-- C3 witness at concrete records. -/
theorem dedupe_grouping_stable_order_deterministic_witness :
    groupRecs 0 ([recA, recB] ++ [recC]) = insertRec 0 (groupRecs 0 [recA, recB]) recC ∧
    ([recA, recB] : List Rec).Sublist [recA, recB] ∧
    keepersOf 0 "largest" [recA, recB] = keepersOf 0 "largest" [recA, recB] := by
  obtain ⟨h1, _, h3, h4⟩ :=
    dedupe_grouping_stable_order_deterministic 0 [recA, recB] recC [recC] [] "largest"
  exact ⟨h1, h3 [recA, recB] (by decide), (h4 [recA, recB] "largest" rfl rfl).1⟩

/-- C4: for any record list and any threshold, the groups cover the hashed
records exactly (their concatenation is a permutation of the input), and on
duplicate-free input the groups are pairwise disjoint: every record belongs
to exactly one group. -/
theorem dedupe_groups_partition (th : Nat) (recs : List Rec) :
    (groupRecs th recs).flatten.Perm recs ∧
    (recs.Nodup → (groupRecs th recs).Pairwise List.Disjoint) := by
  refine ⟨flatten_groupRecs th recs, ?_⟩
  intro hnd
  have hflat : (groupRecs th recs).flatten.Nodup :=
    ((flatten_groupRecs th recs).symm).nodup hnd
  exact (List.nodup_flatten.mp hflat).2

/-- C4 witness at a concrete duplicate-free list and threshold 3. -/
theorem dedupe_groups_partition_witness :
    (groupRecs 3 [recA, recB, recC]).flatten.Perm [recA, recB, recC] ∧
    (groupRecs 3 [recA, recB, recC]).Pairwise List.Disjoint := by
  obtain ⟨h1, h2⟩ := dedupe_groups_partition 3 [recA, recB, recC]
  exact ⟨h1, h2 (by decide)⟩

/-- C7: on a non-empty group, keeper selection returns a member; `first`
yields the group's first element; `largest`, `largest-file` and `newest`
yield the first member attaining the maximal pixel count, byte size and
modification time respectively; `oldest` yields the first member attaining
the minimal modification time — so every tie goes to the first-encountered
member in group order. -/
theorem dedupe_keeper_strategies (x : Rec) (xs : List Rec) (strat : String) :
    keepOf strat (x :: xs) ∈ x :: xs ∧
    keepOf "first" (x :: xs) = x ∧
    FirstMaxBy (fun r => (r.res : Int)) (x :: xs) (keepOf "largest" (x :: xs)) ∧
    FirstMaxBy (fun r => (r.size : Int)) (x :: xs) (keepOf "largest-file" (x :: xs)) ∧
    FirstMaxBy (fun r => r.mtime) (x :: xs) (keepOf "newest" (x :: xs)) ∧
    FirstMinBy (fun r => r.mtime) (x :: xs) (keepOf "oldest" (x :: xs)) := by
  refine ⟨keepOf_mem strat x xs, rfl, ?_, ?_, ?_, ?_⟩
  · simpa [keepOf] using pyMax_spec (fun r => (r.res : Int)) xs x
  · simpa [keepOf] using pyMax_spec (fun r => (r.size : Int)) xs x
  · simpa [keepOf] using pyMax_spec (fun r => r.mtime) xs x
  · simpa [keepOf] using pyMin_spec (fun r => r.mtime) xs x

/-- C7 witness at a concrete two-element group. -/
theorem dedupe_keeper_strategies_witness :
    keepOf "newest" (recA :: [recC]) ∈ recA :: [recC] ∧
    keepOf "first" (recA :: [recC]) = recA := by
  obtain ⟨h1, h2, _⟩ := dedupe_keeper_strategies recA [recC] "newest"
  exact ⟨h1, h2⟩

/-! ## Conflict resolution: `next_non_conflict` (utils.py lines 25-29,
图片工具.py lines 162-177) -/

/-- The candidate sequence of `next_non_conflict` for a desired path with
`os.path.splitext` split `(base, ext)`: candidate `0` is the desired path
itself, candidate `m ≥ 1` inserts the suffix `_m` before the extension. -/
def conflictCand (base ext : String) (m : Nat) : String :=
  if m = 0 then base ++ ext else base ++ "_" ++ toString m ++ ext

/-- The `while os.path.exists(path)` loop of `next_non_conflict` with the
existence check abstracted as `ex`, the current candidate as `path`, the
next suffix number as `i`, and an explicit fuel bound standing for the
unbounded Python loop. -/
def nncGo (ex : String → Bool) (base ext : String) :
    String → Nat → Nat → Option String
  | _, _, 0 => none
  | path, i, fuel + 1 =>
    if ex path then nncGo ex base ext (base ++ "_" ++ toString i ++ ext) (i + 1) fuel
    else some path

/-- `next_non_conflict(path)` where `(base, ext) = os.path.splitext(path)`:
start at the desired path with suffix counter `1`. -/
def nextNonConflict (ex : String → Bool) (base ext : String) (fuel : Nat) :
    Option String :=
  nncGo ex base ext (base ++ ext) 1 fuel

lemma nncGo_sound (ex : String → Bool) (base ext : String) :
    ∀ fuel path i p, nncGo ex base ext path i fuel = some p → ex p = false := by
  intro fuel
  induction fuel with
  | zero => intro path i p h; simp [nncGo] at h
  | succ f ih =>
    intro path i p h
    by_cases hx : ex path = true
    · rw [nncGo, if_pos hx] at h
      exact ih _ _ _ h
    · rw [nncGo, if_neg hx] at h
      rw [Option.some.injEq] at h
      subst h
      simpa using hx

lemma conflictCand_succ (base ext : String) (j : Nat) :
    conflictCand base ext (j + 1) = base ++ "_" ++ toString (j + 1) ++ ext := by
  simp [conflictCand]

lemma nncGo_reaches (ex : String → Bool) (base ext : String) :
    ∀ d j fuel,
      (∀ m, j ≤ m → m < j + d → ex (conflictCand base ext m) = true) →
      ex (conflictCand base ext (j + d)) = false → d < fuel →
      nncGo ex base ext (conflictCand base ext j) (j + 1) fuel =
        some (conflictCand base ext (j + d)) := by
  intro d
  induction d with
  | zero =>
    intro j fuel _ hfree hfuel
    obtain ⟨f, rfl⟩ : ∃ f, fuel = f + 1 := ⟨fuel - 1, by omega⟩
    rw [nncGo, if_neg (by simpa using hfree)]
    simp
  | succ d ih =>
    intro j fuel h hfree hfuel
    obtain ⟨f, rfl⟩ : ∃ f, fuel = f + 1 := ⟨fuel - 1, by omega⟩
    have hj : ex (conflictCand base ext j) = true := h j le_rfl (by omega)
    rw [nncGo, if_pos hj, ← conflictCand_succ]
    have hh : ∀ m, j + 1 ≤ m → m < (j + 1) + d → ex (conflictCand base ext m) = true := by
      intro m hm1 hm2
      exact h m (by omega) (by omega)
    have hfree' : ex (conflictCand base ext ((j + 1) + d)) = false := by
      have : (j + 1) + d = j + (d + 1) := by omega
      rw [this]
      exact hfree
    have := ih (j + 1) f hh hfree' (by omega)
    rw [this]
    have : (j + 1) + d = j + (d + 1) := by omega
    rw [this]

/-- C6: under the rename overwrite policy, `next_non_conflict` only ever
returns a path whose existence check is false; if the desired path is free
it is returned unchanged; and if the desired path `A` exists, the
candidates tried are `A_1, A_2, …` and the first free candidate is
returned. -/
theorem conflict_resolver_rename_progress (ex : String → Bool) (base ext : String) :
    (∀ fuel p, nextNonConflict ex base ext fuel = some p → ex p = false) ∧
    (∀ fuel, ex (base ++ ext) = false → 0 < fuel →
      nextNonConflict ex base ext fuel = some (base ++ ext)) ∧
    (∀ N fuel, 0 < N → N < fuel → ex (base ++ ext) = true →
      (∀ m, m < N → 0 < m → ex (conflictCand base ext m) = true) →
      ex (conflictCand base ext N) = false →
      nextNonConflict ex base ext fuel = some (conflictCand base ext N)) := by
  have hc0 : conflictCand base ext 0 = base ++ ext := by simp [conflictCand]
  refine ⟨?_, ?_, ?_⟩
  · intro fuel p h
    exact nncGo_sound ex base ext fuel _ _ p h
  · intro fuel hfree hfuel
    obtain ⟨f, rfl⟩ : ∃ f, fuel = f + 1 := ⟨fuel - 1, by omega⟩
    unfold nextNonConflict
    rw [nncGo, if_neg (by simpa using hfree)]
  · intro N fuel hN hfuel hx0 hmid hfree
    have h := nncGo_reaches ex base ext N 0 fuel ?_ ?_ hfuel
    · unfold nextNonConflict
      rw [← hc0]
      simpa using h
    · intro m hm1 hm2
      rcases Nat.eq_zero_or_pos m with hm | hm
      · subst hm; rw [hc0]; exact hx0
      · exact hmid m (by omega) hm
    · simpa using hfree

/-- Existence oracle for the C6 witness: only `A.png` and `A_1.png` exist. -/
def exW : String → Bool := fun s => s == "A.png" || s == "A_1.png"

/-- C6 witness: with `A.png` and `A_1.png` taken, the resolver returns the
first free candidate `A_2.png`. -/
theorem conflict_resolver_rename_progress_witness :
    nextNonConflict exW "A" ".png" 5 = some (conflictCand "A" ".png" 2) ∧
    exW (conflictCand "A" ".png" 2) = false := by
  obtain ⟨h1, _, h3⟩ := conflict_resolver_rename_progress exW "A" ".png"
  refine ⟨h3 2 5 (by decide) (by decide) (by decide) (by decide) (by decide), by decide⟩

/-! ## Source purge safety: `_remove_source_files` (图片工具.py lines 2980-3028) -/

/-- An absolute path for the purge model: a drive (empty on POSIX) plus the
normalised path components.  `os.path.relpath` raises `ValueError` exactly
when the two paths live on different drives. -/
structure APath where
  drive : String
  comps : List String
  deriving DecidableEq, Repr

/-- The component form of `os.path.relpath(p, root)` for normalised
absolute component lists: strip the common prefix, then one `..` per
remaining root component followed by the remaining components of `p`. -/
def relComps : List String → List String → List String
  | p, [] => p
  | [], b :: r' => List.replicate (b :: r').length ".."
  | a :: p', b :: r' =>
    if a = b then relComps p' r'
    else List.replicate (b :: r').length ".." ++ a :: p'

/-- `os.path.relpath(source, input_dir)` as called at 图片工具.py line 3006;
`none` models the `ValueError` branch. -/
def relpathOpt (p root : APath) : Option (List String) :=
  if p.drive = root.drive then some (relComps p.comps root.comps) else none

/-- Python's `s.startswith('..')`: the first two characters are dots. -/
def strStartsDotDot (s : String) : Bool :=
  match s.toList with
  | c₁ :: c₂ :: _ => c₁ == '.' && c₂ == '.'
  | _ => false

/-- The string test `rel_path.startswith('..')` applied to the joined
relative path: true iff the first component starts with `..` (an empty
relative path joins to `'.'`, which does not start with `..`). -/
def relStartsDotDot (rel : List String) : Bool :=
  match rel with
  | [] => false
  | c :: _ => strStartsDotDot c

/-- The per-candidate decision of `_remove_source_files` (图片工具.py lines
2999-3013): skip files that no longer exist, skip when the relative path
cannot be computed or starts with `..`, otherwise delete. -/
def purgeDecision (fileExists : APath → Bool) (inputDir : APath) (s : APath) : Bool :=
  if fileExists s then
    match relpathOpt s inputDir with
    | none => false
    | some rel => ! relStartsDotDot rel
  else false

/-- `_remove_source_files`: the set of originals actually deleted.  The
surrounding guard (lines 2983-2986) bails out when the input directory is
unset or missing. -/
def removeSourceFiles (fileExists : APath → Bool) (inputDir : APath)
    (sources : List APath) : List APath :=
  if inputDir.comps = [] ∨ ¬ fileExists inputDir then []
  else sources.filter (purgeDecision fileExists inputDir)

lemma relStartsDotDot_of_not_prefix :
    ∀ (p r : List String), ¬ r <+: p → relStartsDotDot (relComps p r) = true := by
  intro p
  induction p with
  | nil =>
    intro r hr
    cases r with
    | nil => exact absurd (List.nil_prefix) hr
    | cons b r' =>
      show relStartsDotDot (List.replicate (b :: r').length "..") = true
      rw [List.length_cons, List.replicate_succ]
      rfl
  | cons a p' ih =>
    intro r hr
    cases r with
    | nil => exact absurd (List.nil_prefix) hr
    | cons b r' =>
      by_cases hab : a = b
      · subst hab
        have hr' : ¬ r' <+: p' := by
          intro hcon
          exact hr (List.cons_prefix_cons.mpr ⟨rfl, hcon⟩)
        show relStartsDotDot (relComps (a :: p') (a :: r')) = true
        rw [relComps, if_pos rfl]
        exact ih r' hr'
      · show relStartsDotDot (relComps (a :: p') (b :: r')) = true
        rw [relComps, if_neg hab, List.length_cons, List.replicate_succ]
        rfl

/-- C5: with purge-sources enabled, the source-removal step deletes only
paths that lie under the declared input root — same drive and the root's
components are a prefix — and every candidate whose relative path starts
with `..` or cannot be computed is skipped. -/
theorem purge_sources_only_under_input_root
    (fileExists : APath → Bool) (inputDir : APath) (sources : List APath) :
    (∀ s ∈ removeSourceFiles fileExists inputDir sources,
      s.drive = inputDir.drive ∧ inputDir.comps <+: s.comps) ∧
    (∀ s, (relpathOpt s inputDir = none ∨
        (∃ rel, relpathOpt s inputDir = some rel ∧ relStartsDotDot rel = true)) →
      s ∉ removeSourceFiles fileExists inputDir sources) := by
  constructor
  · intro s hs
    unfold removeSourceFiles at hs
    by_cases hguard : inputDir.comps = [] ∨ ¬ fileExists inputDir = true
    · rw [if_pos hguard] at hs
      simp at hs
    · rw [if_neg hguard] at hs
      have hdec := List.of_mem_filter hs
      unfold purgeDecision at hdec
      by_cases hex : fileExists s = true
      · rw [if_pos hex] at hdec
        rcases hopt : relpathOpt s inputDir with _ | rel
        · rw [hopt] at hdec; simp at hdec
        · rw [hopt] at hdec
          simp only [Bool.not_eq_true'] at hdec
          have hdd : relStartsDotDot rel = false := hdec
          unfold relpathOpt at hopt
          by_cases hdr : s.drive = inputDir.drive
          · rw [if_pos hdr] at hopt
            rw [Option.some.injEq] at hopt
            refine ⟨hdr, ?_⟩
            by_contra hnp
            have := relStartsDotDot_of_not_prefix s.comps inputDir.comps hnp
            rw [hopt] at this
            rw [this] at hdd
            exact Bool.true_eq_false.mp hdd
          · rw [if_neg hdr] at hopt
            exact absurd hopt (by simp)
      · rw [if_neg hex] at hdec
        simp at hdec
  · intro s hbad hs
    unfold removeSourceFiles at hs
    by_cases hguard : inputDir.comps = [] ∨ ¬ fileExists inputDir = true
    · rw [if_pos hguard] at hs
      simp at hs
    · rw [if_neg hguard] at hs
      have hdec := List.of_mem_filter hs
      unfold purgeDecision at hdec
      by_cases hex : fileExists s = true
      · rw [if_pos hex] at hdec
        rcases hbad with hbad | ⟨rel, hrel, hdd⟩
        · rw [hbad] at hdec; simp at hdec
        · rw [hrel] at hdec
          simp only [Bool.not_eq_true'] at hdec
          rw [hdd] at hdec
          exact Bool.true_eq_false.mp hdec
      · rw [if_neg hex] at hdec
        simp at hdec

/-- Concrete paths for the C5 witness. -/
def inRootW : APath := ⟨"", ["home", "u", "in"]⟩

def srcInsideW : APath := ⟨"", ["home", "u", "in", "x.png"]⟩

def srcOutsideW : APath := ⟨"", ["home", "u", "out", "y.png"]⟩

/-- C5 witness: the inside candidate that gets deleted indeed resolves
under the input root, and the outside candidate (whose relative path starts
with `..`) is skipped. -/
theorem purge_sources_only_under_input_root_witness :
    (srcInsideW.drive = inRootW.drive ∧ inRootW.comps <+: srcInsideW.comps) ∧
    srcOutsideW ∉ removeSourceFiles (fun _ => true) inRootW [srcInsideW, srcOutsideW] := by
  obtain ⟨h1, h2⟩ :=
    purge_sources_only_under_input_root (fun _ => true) inRootW [srcInsideW, srcOutsideW]
  refine ⟨h1 srcInsideW (by decide), ?_⟩
  exact h2 srcOutsideW (Or.inr ⟨["..", "out", "y.png"], by decide, by decide⟩)

/-! ## File-system model for the staged pipeline -/

/-- Paths are normalised absolute component lists: `os.path.join` is list
append, `os.path.abspath` the identity, `os.path.dirname` drops the last
component, `os.path.basename` takes it. -/
abbrev Path := List String

/-- A file-system entry: a directory, or a file with its byte content. -/
inductive Entry
  | dir
  | file (content : Nat)
  deriving DecidableEq, Repr

/-- The file system: each path carries at most one entry. -/
abbrev FS := Path → Option Entry

def fsExists (fs : FS) (p : Path) : Bool := (fs p).isSome

def fsIsFile (fs : FS) (p : Path) : Bool :=
  match fs p with
  | some (.file _) => true
  | _ => false

def fsIsDir (fs : FS) (p : Path) : Bool :=
  match fs p with
  | some .dir => true
  | _ => false

/-- `os.makedirs(d, exist_ok=True)`: create `d` and every missing ancestor
as a directory; existing entries are untouched. -/
def mkdirs (d : Path) (fs : FS) : FS :=
  fun p => if p.isPrefixOf d && (fs p).isNone then some .dir else fs p

/-- `shutil.copy2(src, dst)`: when `src` is a file, (over)write `dst` with
its content; the raising branches (missing source) leave the state
unchanged, matching the callers' try/except wrappers. -/
def copy2 (src dst : Path) (fs : FS) : FS :=
  match fs src with
  | some (.file c) => fun p => if p = dst then some (.file c) else fs p
  | _ => fs

/-- `shutil.move(src, dst)` on a file: write `dst`, drop `src`. -/
def moveFile (src dst : Path) (fs : FS) : FS :=
  match fs src with
  | some (.file c) => fun p => if p = dst then some (.file c) else if p = src then none else fs p
  | _ => fs

/-- An external encoder (`convert_one` / `im.save`) producing `dst`. -/
def writeFile (dst : Path) (c : Nat) (fs : FS) : FS :=
  fun p => if p = dst then some (.file c) else fs p

/-- `os.remove` / `send2trash` on a file (the system trash lives outside
the modelled tree). -/
def removeFile (q : Path) (fs : FS) : FS :=
  fun p => if p = q then none else fs p

/-- `shutil.rmtree(d)`: drop the whole subtree rooted at `d`. -/
def rmtree (d : Path) (fs : FS) : FS :=
  fun p => if d.isPrefixOf p then none else fs p

/-- All proper ancestors of `root` are present (the output directory chain
exists); `os.makedirs` then creates nothing outside `root`. -/
def OutAnc (root : Path) (fs : FS) : Prop :=
  ∀ q : Path, q <+: root → q ≠ root → fs q ≠ none

/-- Frame property: under `OutAnc`, the transformer leaves every path that
is not under `root` untouched and keeps `OutAnc`. -/
def PreservesOutside (root : Path) (t : FS → FS) : Prop :=
  ∀ fs : FS, OutAnc root fs →
    (∀ p : Path, ¬ root <+: p → t fs p = fs p) ∧ OutAnc root (t fs)

lemma prefix_antisymm {a b : Path} (h1 : a <+: b) (h2 : b <+: a) : a = b :=
  h1.eq_of_length (le_antisymm h1.length_le h2.length_le)

lemma not_prefix_of_proper {root q : Path} (hq : q <+: root) (hne : q ≠ root) :
    ¬ root <+: q :=
  fun hcon => hne (prefix_antisymm hq hcon)

lemma po_id (root : Path) : PreservesOutside root id :=
  fun _ h => ⟨fun _ _ => rfl, h⟩

lemma po_comp {root : Path} {f g : FS → FS}
    (hf : PreservesOutside root f) (hg : PreservesOutside root g) :
    PreservesOutside root (fun fs => g (f fs)) := by
  intro fs h
  obtain ⟨hf1, hf2⟩ := hf fs h
  obtain ⟨hg1, hg2⟩ := hg (f fs) hf2
  exact ⟨fun p hp => (hg1 p hp).trans (hf1 p hp), hg2⟩

lemma po_mkdirs {root d : Path} (hd : root <+: d) :
    PreservesOutside root (mkdirs d) := by
  intro fs hanc
  constructor
  · intro p hp
    unfold mkdirs
    by_cases hpre : p.isPrefixOf d = true
    · have hpd : p <+: d := List.isPrefixOf_iff_prefix.mp hpre
      rcases List.prefix_or_prefix_of_prefix hpd hd with hc | hc
      · have hne : p ≠ root := fun he => hp (he ▸ List.prefix_rfl)
        have := hanc p hc hne
        have hnn : (fs p).isNone = false := by
          cases hfs : fs p
          · exact absurd hfs this
          · rfl
        rw [hpre, hnn]
        simp
      · exact absurd hc hp
    · have hpre' : p.isPrefixOf d = false := by
        cases hx : p.isPrefixOf d
        · rfl
        · exact absurd hx hpre
      rw [hpre']
      simp
  · intro q hq hne
    unfold mkdirs
    by_cases hc : (q.isPrefixOf d && (fs q).isNone) = true
    · rw [if_pos hc]; simp
    · rw [if_neg hc]; exact hanc q hq hne

lemma po_copy2 {root : Path} (src : Path) {dst : Path} (hd : root <+: dst) :
    PreservesOutside root (copy2 src dst) := by
  intro fs hanc
  cases hsrc : fs src with
  | none => simp only [copy2, hsrc]; exact ⟨fun _ _ => trivial, hanc⟩
  | some e =>
    cases e with
    | dir => simp only [copy2, hsrc]; exact ⟨fun _ _ => trivial, hanc⟩
    | file c =>
      constructor
      · intro p hp
        have hne : p ≠ dst := fun he => hp (by rw [he]; exact hd)
        simp only [copy2, hsrc]
        rw [if_neg hne]
      · intro q hq hne
        have hq' : q ≠ dst := fun he =>
          (not_prefix_of_proper hq hne) (by rw [he]; exact hd)
        simp only [copy2, hsrc]
        rw [if_neg hq']
        exact hanc q hq hne

lemma po_moveFile {root src dst : Path} (hs : root <+: src) (hd : root <+: dst) :
    PreservesOutside root (moveFile src dst) := by
  intro fs hanc
  cases hsrc : fs src with
  | none => simp only [moveFile, hsrc]; exact ⟨fun _ _ => trivial, hanc⟩
  | some e =>
    cases e with
    | dir => simp only [moveFile, hsrc]; exact ⟨fun _ _ => trivial, hanc⟩
    | file c =>
      constructor
      · intro p hp
        have h1 : p ≠ dst := fun he => hp (by rw [he]; exact hd)
        have h2 : p ≠ src := fun he => hp (by rw [he]; exact hs)
        simp only [moveFile, hsrc]
        rw [if_neg h1, if_neg h2]
      · intro q hq hne
        have h1 : q ≠ dst := fun he =>
          (not_prefix_of_proper hq hne) (by rw [he]; exact hd)
        have h2 : q ≠ src := fun he =>
          (not_prefix_of_proper hq hne) (by rw [he]; exact hs)
        simp only [moveFile, hsrc]
        rw [if_neg h1, if_neg h2]
        exact hanc q hq hne

lemma po_writeFile {root dst : Path} (c : Nat) (hd : root <+: dst) :
    PreservesOutside root (writeFile dst c) := by
  intro fs hanc
  constructor
  · intro p hp
    have h1 : p ≠ dst := fun he => hp (by rw [he]; exact hd)
    simp only [writeFile]
    rw [if_neg h1]
  · intro q hq hne
    have h1 : q ≠ dst := fun he =>
      (not_prefix_of_proper hq hne) (by rw [he]; exact hd)
    simp only [writeFile]
    rw [if_neg h1]
    exact hanc q hq hne

lemma po_removeFile {root q0 : Path} (hq0 : root <+: q0) :
    PreservesOutside root (removeFile q0) := by
  intro fs hanc
  constructor
  · intro p hp
    have h1 : p ≠ q0 := fun he => hp (by rw [he]; exact hq0)
    simp only [removeFile]
    rw [if_neg h1]
  · intro q hq hne
    have h1 : q ≠ q0 := fun he =>
      (not_prefix_of_proper hq hne) (by rw [he]; exact hq0)
    simp only [removeFile]
    rw [if_neg h1]
    exact hanc q hq hne

lemma po_rmtree {root d : Path} (hd : root <+: d) :
    PreservesOutside root (rmtree d) := by
  intro fs hanc
  constructor
  · intro p hp
    have hnp : d.isPrefixOf p = false := by
      cases hx : d.isPrefixOf p
      · rfl
      · exact absurd (hd.trans (List.isPrefixOf_iff_prefix.mp hx)) hp
    simp only [rmtree]
    rw [hnp]
    simp
  · intro q hq hne
    have hnp : d.isPrefixOf q = false := by
      cases hx : d.isPrefixOf q
      · rfl
      · exact absurd (hd.trans (List.isPrefixOf_iff_prefix.mp hx))
          (not_prefix_of_proper hq hne)
    simp only [rmtree]
    rw [hnp]
    simp only [Bool.false_eq_true, if_false]
    exact hanc q hq hne

/-- Entries never vanish under `mkdirs`. -/
lemma mkdirs_keeps {d : Path} {fs : FS} {p : Path} (h : fs p ≠ none) :
    mkdirs d fs p ≠ none := by
  unfold mkdirs
  by_cases hc : (p.isPrefixOf d && (fs p).isNone) = true
  · rw [if_pos hc]; simp
  · rw [if_neg hc]; exact h

/-- `mkdirs` makes its target exist. -/
lemma mkdirs_target {d : Path} {fs : FS} : mkdirs d fs d ≠ none := by
  unfold mkdirs
  by_cases hc : (d.isPrefixOf d && (fs d).isNone) = true
  · rw [if_pos hc]; simp
  · rw [if_neg hc]
    intro hnone
    apply hc
    simp [hnone]

/-- `mkdirs` is idempotent on the state. -/
lemma mkdirs_idem (d : Path) (fs : FS) : mkdirs d (mkdirs d fs) = mkdirs d fs := by
  funext p
  show (if p.isPrefixOf d && (mkdirs d fs p).isNone then some Entry.dir else mkdirs d fs p) = _
  by_cases hpre : p.isPrefixOf d = true
  · have : mkdirs d fs p ≠ none := by
      unfold mkdirs
      by_cases hn : (fs p).isNone = true
      · rw [if_pos (by simp [hpre, hn])]; simp
      · rw [if_neg (by simp [hn])]
        intro hc
        rw [hc] at hn
        exact hn rfl
    have hn2 : (mkdirs d fs p).isNone = false := by
      cases hx : mkdirs d fs p
      · exact absurd hx this
      · rfl
    rw [hn2]
    simp
  · have hpre' : p.isPrefixOf d = false := by
      cases hx : p.isPrefixOf d
      · rfl
      · exact absurd hx hpre
    rw [hpre']
    simp

lemma rmtree_keeps {d p : Path} (fs : FS) (h : ¬ d <+: p) : rmtree d fs p = fs p := by
  have hb : d.isPrefixOf p = false := by
    cases hx : d.isPrefixOf p
    · rfl
    · exact absurd (List.isPrefixOf_iff_prefix.mp hx) h
  simp only [rmtree]
  rw [hb]
  simp

lemma not_prefix_of_length_lt {a b : Path} (h : b.length < a.length) : ¬ a <+: b :=
  fun hc => absurd hc.length_le (by omega)

/-! ## Shadow workspace: `_ensure_cache_dir` (图片工具.py lines 1586-1614)
and the input staging of `_copy_input_to_cache` (lines 1915-1917) -/

/-- The mutable workspace state: the tracked cache, trash and final
directory variables plus the file system. -/
structure WSState where
  cacheDir : Option Path
  trashDir : Option Path
  finalDir : Option Path
  fs : FS

/-- The early-return guard of `_ensure_cache_dir` (line 1587):
`self.cache_dir and os.path.exists(self.cache_dir)`. -/
def wsGuard (s : WSState) : Bool :=
  match s.cacheDir with
  | some d => fsExists s.fs d
  | none => false

/-- `out_dir = self.out_var.get().strip() or os.getcwd()` (line 1588). -/
def outEff (outVar cwd : Path) : Path := if outVar = [] then cwd else outVar

/-- `cache_dir = os.path.join(out_dir, '.preview_cache')` (line 1589). -/
def cachePath (outVar cwd : Path) : Path := outEff outVar cwd ++ [".preview_cache"]

/-- The defensive `_final` fallback of lines 1591-1593 (dead in practice:
the basename is always `.preview_cache`). -/
def cacheFixed (outVar cwd : Path) : Path :=
  if (cachePath outVar cwd).getLastD "" = "_final" then (cachePath outVar cwd).dropLast
  else cachePath outVar cwd

/-- `cache_trash_dir` (line 1600). -/
def trashPath (outVar cwd : Path) : Path := cacheFixed outVar cwd ++ ["_trash"]

/-- `cache_final_dir` with the `_final`-nesting guard (lines 1603-1607). -/
def finalPath (outVar cwd : Path) : Path :=
  if (cacheFixed outVar cwd).getLastD "" = "_final" then cacheFixed outVar cwd
  else cacheFixed outVar cwd ++ ["_final"]

/-- The doubly nested `_final/_final` path cleared at lines 1610-1613. -/
def innerFinal (outVar cwd : Path) : Path := finalPath outVar cwd ++ ["_final"]

/-- The file-system effect of the non-guarded branch of
`_ensure_cache_dir`: create the cache root, the trash subtree, the final
subtree if missing, then clear an inner `_final/_final`. -/
def ensureFs (outVar cwd : Path) (fs : FS) : FS :=
  let fs1 := mkdirs (cacheFixed outVar cwd) fs
  let fs2 := mkdirs (trashPath outVar cwd) fs1
  let fs3 := if fsExists fs2 (finalPath outVar cwd) then fs2
    else mkdirs (finalPath outVar cwd) fs2
  if fsIsDir fs3 (innerFinal outVar cwd) then rmtree (innerFinal outVar cwd) fs3 else fs3

/-- `_ensure_cache_dir` as a state transformer. -/
def ensureCacheDir (outVar cwd : Path) (s : WSState) : WSState :=
  if wsGuard s then s
  else
    ⟨some (cacheFixed outVar cwd), some (trashPath outVar cwd),
      some (finalPath outVar cwd), ensureFs outVar cwd s.fs⟩

/-- The input staging directory creation of `_copy_input_to_cache` lines
1915-1917: `os.makedirs(os.path.join(self.cache_dir, 'input'),
exist_ok=True)`.  With no tracked cache directory the join raises and the
surrounding try/except leaves the state unchanged. -/
def stageInputDirs (s : WSState) : WSState :=
  match s.cacheDir with
  | none => s
  | some cache => ⟨s.cacheDir, s.trashDir, s.finalDir, mkdirs (cache ++ ["input"]) s.fs⟩

/-- Ensure followed by input staging: the composite the spec calls
`ensure()` (it creates `input`, `final` and `trash`). -/
def ensureWithInput (outVar cwd : Path) (s : WSState) : WSState :=
  stageInputDirs (ensureCacheDir outVar cwd s)

lemma cacheFixed_eq (outVar cwd : Path) :
    cacheFixed outVar cwd = cachePath outVar cwd := by
  unfold cacheFixed cachePath
  rw [List.getLastD_concat]
  rw [if_neg (by decide)]

lemma finalPath_eq (outVar cwd : Path) :
    finalPath outVar cwd = cachePath outVar cwd ++ ["_final"] := by
  unfold finalPath
  rw [cacheFixed_eq]
  unfold cachePath
  rw [List.getLastD_concat]
  rw [if_neg (by decide)]

lemma ensureFs_keeps_core (outVar cwd : Path) (fs : FS) :
    ensureFs outVar cwd fs (cacheFixed outVar cwd) ≠ none ∧
    ensureFs outVar cwd fs (trashPath outVar cwd) ≠ none ∧
    ensureFs outVar cwd fs (finalPath outVar cwd) ≠ none := by
  have hlen : (cachePath outVar cwd).length = (outEff outVar cwd).length + 1 := by
    simp [cachePath]
  have hinner : innerFinal outVar cwd = cachePath outVar cwd ++ ["_final", "_final"] := by
    unfold innerFinal
    rw [finalPath_eq]
    simp
  have hni1 : ¬ innerFinal outVar cwd <+: cacheFixed outVar cwd := by
    rw [hinner, cacheFixed_eq]
    apply not_prefix_of_length_lt
    simp
  have hni2 : ¬ innerFinal outVar cwd <+: trashPath outVar cwd := by
    rw [hinner]
    unfold trashPath
    rw [cacheFixed_eq]
    apply not_prefix_of_length_lt
    simp
  have hni3 : ¬ innerFinal outVar cwd <+: finalPath outVar cwd := by
    rw [hinner, finalPath_eq]
    apply not_prefix_of_length_lt
    simp
  unfold ensureFs
  set fs1 := mkdirs (cacheFixed outVar cwd) fs with hfs1
  set fs2 := mkdirs (trashPath outVar cwd) fs1 with hfs2
  set fs3 := if fsExists fs2 (finalPath outVar cwd) then fs2
    else mkdirs (finalPath outVar cwd) fs2 with hfs3
  have hc1 : fs1 (cacheFixed outVar cwd) ≠ none := mkdirs_target
  have hc2 : fs2 (cacheFixed outVar cwd) ≠ none := mkdirs_keeps hc1
  have hc3 : fs3 (cacheFixed outVar cwd) ≠ none := by
    rw [hfs3]
    by_cases hx : fsExists fs2 (finalPath outVar cwd) = true
    · rw [if_pos hx]; exact hc2
    · rw [if_neg hx]; exact mkdirs_keeps hc2
  have ht2 : fs2 (trashPath outVar cwd) ≠ none := mkdirs_target
  have ht3 : fs3 (trashPath outVar cwd) ≠ none := by
    rw [hfs3]
    by_cases hx : fsExists fs2 (finalPath outVar cwd) = true
    · rw [if_pos hx]; exact ht2
    · rw [if_neg hx]; exact mkdirs_keeps ht2
  have hf3 : fs3 (finalPath outVar cwd) ≠ none := by
    rw [hfs3]
    by_cases hx : fsExists fs2 (finalPath outVar cwd) = true
    · rw [if_pos hx]
      intro hc
      rw [fsExists, hc] at hx
      simp at hx
    · rw [if_neg hx]; exact mkdirs_target
  by_cases hdir : fsIsDir fs3 (innerFinal outVar cwd) = true
  · rw [if_pos hdir]
    refine ⟨?_, ?_, ?_⟩
    · rw [rmtree_keeps fs3 hni1]; exact hc3
    · rw [rmtree_keeps fs3 hni2]; exact ht3
    · rw [rmtree_keeps fs3 hni3]; exact hf3
  · rw [if_neg hdir]
    exact ⟨hc3, ht3, hf3⟩

lemma wsGuard_ensure (outVar cwd : Path) (s : WSState) :
    wsGuard (ensureCacheDir outVar cwd s) = true := by
  by_cases hg : wsGuard s = true
  · rw [ensureCacheDir, if_pos hg]; exact hg
  · rw [ensureCacheDir, if_neg hg]
    show (match some (cacheFixed outVar cwd) with
      | some d => fsExists (ensureFs outVar cwd s.fs) d
      | none => false) = true
    simp only []
    rw [fsExists]
    have := (ensureFs_keeps_core outVar cwd s.fs).1
    cases hx : ensureFs outVar cwd s.fs (cacheFixed outVar cwd)
    · exact absurd hx this
    · rfl

/-- Ensure alone is idempotent on the workspace state. -/
lemma ensureCacheDir_idem (outVar cwd : Path) (s : WSState) :
    ensureCacheDir outVar cwd (ensureCacheDir outVar cwd s) =
      ensureCacheDir outVar cwd s := by
  rw [ensureCacheDir, if_pos (wsGuard_ensure outVar cwd s)]

lemma fsExists_true_iff (fs : FS) (p : Path) : fsExists fs p = true ↔ fs p ≠ none := by
  unfold fsExists
  cases fs p <;> simp

lemma wsGuard_stage {t : WSState} (h : wsGuard t = true) :
    wsGuard (stageInputDirs t) = true := by
  unfold wsGuard at h
  cases hc : t.cacheDir with
  | none => rw [hc] at h; simp at h
  | some d =>
    rw [hc] at h
    unfold stageInputDirs
    rw [hc]
    show fsExists (mkdirs (d ++ ["input"]) t.fs) d = true
    rw [fsExists_true_iff]
    exact mkdirs_keeps ((fsExists_true_iff t.fs d).mp h)

lemma stageInputDirs_idem (t : WSState) :
    stageInputDirs (stageInputDirs t) = stageInputDirs t := by
  cases hc : t.cacheDir with
  | none => simp [stageInputDirs, hc]
  | some c =>
    unfold stageInputDirs
    rw [hc]
    simp only [hc, mkdirs_idem]

/-- Composite ensure-then-stage-input is idempotent. -/
lemma ensureWithInput_idem (outVar cwd : Path) (s : WSState) :
    ensureWithInput outVar cwd (ensureWithInput outVar cwd s) =
      ensureWithInput outVar cwd s := by
  unfold ensureWithInput
  have hu : wsGuard (stageInputDirs (ensureCacheDir outVar cwd s)) = true :=
    wsGuard_stage (wsGuard_ensure outVar cwd s)
  rw [ensureCacheDir, if_pos hu]
  exact stageInputDirs_idem (ensureCacheDir outVar cwd s)

/-- C9 (amended): the cache-ensure step is a no-op when the tracked cache
root still exists; otherwise it creates the cache root with its `_trash`
and `_final` subtrees (the `input` subtree is created separately by input
staging); the ensure step, and ensure followed by input staging, are both
idempotent: running either twice equals running it once. -/
theorem ensure_cache_dir_idempotent_spec (outVar cwd : Path) (s : WSState) :
    (wsGuard s = true → ensureCacheDir outVar cwd s = s) ∧
    (wsGuard s = false →
      (ensureCacheDir outVar cwd s).cacheDir = some (cachePath outVar cwd) ∧
      fsExists (ensureCacheDir outVar cwd s).fs (cachePath outVar cwd) = true ∧
      fsExists (ensureCacheDir outVar cwd s).fs (cachePath outVar cwd ++ ["_trash"]) = true ∧
      fsExists (ensureCacheDir outVar cwd s).fs (cachePath outVar cwd ++ ["_final"]) = true) ∧
    (ensureCacheDir outVar cwd (ensureCacheDir outVar cwd s) =
      ensureCacheDir outVar cwd s) ∧
    (ensureWithInput outVar cwd (ensureWithInput outVar cwd s) =
      ensureWithInput outVar cwd s) := by
  refine ⟨?_, ?_, ensureCacheDir_idem outVar cwd s, ensureWithInput_idem outVar cwd s⟩
  · intro hg
    rw [ensureCacheDir, if_pos hg]
  · intro hg
    rw [ensureCacheDir, if_neg (by simp [hg])]
    obtain ⟨h1, h2, h3⟩ := ensureFs_keeps_core outVar cwd s.fs
    rw [cacheFixed_eq] at h1
    have h2' := h2
    unfold trashPath at h2'
    rw [cacheFixed_eq] at h2'
    have h3' := h3
    rw [finalPath_eq] at h3'
    refine ⟨by rw [cacheFixed_eq], ?_, ?_, ?_⟩
    · exact (fsExists_true_iff _ _).mpr h1
    · exact (fsExists_true_iff _ _).mpr h2'
    · exact (fsExists_true_iff _ _).mpr h3'

/-- Initial file system for the C9 scenario: only the root and the output
directory exist. -/
def fs0W : FS := fun p =>
  if p = ([] : Path) ∨ p = (["out"] : Path) then some Entry.dir else none

/-- Fresh workspace state: nothing tracked yet. -/
def s0W : WSState := ⟨none, none, none, fs0W⟩

/-- C9 counterexample: on a fresh state the ensure operation creates the
cache root (with `_trash` and `_final`), but no `input` subtree — the claim
says ensure "creates the input, final, and trash subtrees". -/
theorem ensure_cache_dir_no_input_counterexample :
    wsGuard s0W = false ∧
    fsExists (ensureCacheDir ["out"] [] s0W).fs ["out", ".preview_cache"] = true ∧
    (ensureCacheDir ["out"] [] s0W).fs ["out", ".preview_cache", "input"] = none := by
  refine ⟨by decide, by decide, by decide⟩

/-- C9 witness: the amended theorem applied at the concrete fresh state. -/
theorem ensure_cache_dir_idempotent_spec_witness :
    (ensureCacheDir ["out"] [] s0W).cacheDir = some ["out", ".preview_cache"] ∧
    ensureCacheDir ["out"] [] (ensureCacheDir ["out"] [] s0W) =
      ensureCacheDir ["out"] [] s0W := by
  obtain ⟨_, h2, h3, _⟩ := ensure_cache_dir_idempotent_spec ["out"] [] s0W
  have hg : wsGuard s0W = false := by decide
  refine ⟨?_, h3⟩
  have := (h2 hg).1
  simpa [cachePath, outEff] using this

/-! ## Rename stage: `batch_rename` (app/stages/rename.py lines 4-49) -/

/-- `os.path.basename` on a component path. -/
def basename (p : Path) : String := p.getLastD ""

/-- `os.path.splitext` on a single path component: split at the last dot,
except when every character before that dot is itself a dot (CPython's
leading-dot rule, so `.bashrc` has no extension). -/
def pySplitext (s : String) : String × String :=
  let cs := s.toList
  let tailLen := (cs.reverse.takeWhile (fun c => c ≠ '.')).length
  if tailLen = cs.length then (s, "")
  else
    let dotIdx := cs.length - tailLen - 1
    if (cs.take dotIdx).all (fun c => c = '.') then (s, "")
    else (String.mk (cs.take dotIdx), String.mk (cs.drop dotIdx))

/-- The suffix loop of `next_non_conflict` over the modelled file system:
try `stem_i.ext` inside `dir`, counting up, with explicit fuel for the
unbounded source loop (on exhaustion the current candidate is returned). -/
def nncFsGo (fs : FS) (dir : Path) (stem ext : String) : Nat → Nat → String
  | i, 0 => stem ++ "_" ++ toString i ++ ext
  | i, fuel + 1 =>
    let cand := stem ++ "_" ++ toString i ++ ext
    if fsExists fs (dir ++ [cand]) then nncFsGo fs dir stem ext (i + 1) fuel
    else cand

/-- `next_non_conflict(dest)` on the modelled file system (utils.py lines
25-29): if the destination exists, replace its basename by the first free
`stem_i.ext` candidate in the same directory. -/
def nextNonConflictFs (fs : FS) (dest : Path) (fuel : Nat) : Path :=
  if fsExists fs dest then
    let se := pySplitext (basename dest)
    dest.dropLast ++ [nncFsGo fs dest.dropLast se.1 se.2 1 fuel]
  else dest

/-- The per-file loop of `batch_rename` (rename.py lines 8-49) over the
modelled file system.  The pure name-construction block (lines 11-27:
token substitution, zero padding, ratio label, default extension) is a pure
function of the file and the current index and is abstracted as `render`;
the control flow around it — the `isfile` guard (line 9), the same-path
skip (lines 29-30), the overwrite policies (lines 31-37), the write (lines
38-45) and the unconditional `idx += step` — is embedded directly.  The
returned association list records, for each file that reached the naming
step, the sequence index it consumed. -/
def batchRenameGo (render : Path → Int → String) (outDir : Path)
    (overwrite : String) (removeSrc preview : Bool) (step : Int) (fuel : Nat) :
    List Path → Int → FS → FS × List (Path × Int)
  | [], _, fs => (fs, [])
  | f :: rest, idx, fs =>
    if fsIsFile fs f then
      let dest := outDir ++ [render f idx]
      if dest = f then
        let r := batchRenameGo render outDir overwrite removeSrc preview step fuel
          rest (idx + step) fs
        (r.1, (f, idx) :: r.2)
      else if fsExists fs dest && (overwrite == "skip") then
        let r := batchRenameGo render outDir overwrite removeSrc preview step fuel
          rest (idx + step) fs
        (r.1, (f, idx) :: r.2)
      else
        let dest2 :=
          if fsExists fs dest then
            if overwrite == "rename" then
              if preview then dest.dropLast ++ [basename dest ++ "(预览改名)"]
              else nextNonConflictFs fs dest fuel
            else dest
          else dest
        let fs2 := if preview then copy2 f dest2 fs
          else if removeSrc then moveFile f dest2 fs else copy2 f dest2 fs
        let r := batchRenameGo render outDir overwrite removeSrc preview step fuel
          rest (idx + step) fs2
        (r.1, (f, idx) :: r.2)
    else
      batchRenameGo render outDir overwrite removeSrc preview step fuel rest idx fs

/-- `batch_rename` top level: the empty-pattern early return (rename.py
lines 5-6), then the per-file loop from the start index. -/
def batchRename (render : Path → Int → String) (pattern : String) (outDir : Path)
    (overwrite : String) (removeSrc preview : Bool) (start step : Int) (fuel : Nat)
    (files : List Path) (fs : FS) : FS × List (Path × Int) :=
  if pattern = "" then (fs, [])
  else batchRenameGo render outDir overwrite removeSrc preview step fuel files start fs

lemma range_map_progression (start step : Int) (n : Nat) :
    (List.range (n + 1)).map (fun (k : Nat) => start + step * (k : Int)) =
      start :: (List.range n).map (fun (k : Nat) => (start + step) + step * (k : Int)) := by
  rw [List.range_succ_eq_map]
  simp only [List.map_cons, List.map_map]
  congr 1
  · simp
  · have hfun : ((fun k : Nat => start + step * (k : Int)) ∘ Nat.succ) =
        fun k : Nat => (start + step) + step * (k : Int) := by
      funext k
      show start + step * ((k + 1 : Nat) : Int) = (start + step) + step * (k : Int)
      push_cast
      ring
    rw [hfun]

lemma batchRenameGo_indices (render : Path → Int → String) (outDir : Path)
    (overwrite : String) (removeSrc preview : Bool) (step : Int) (fuel : Nat) :
    ∀ (files : List Path) (idx : Int) (fs : FS),
      ((batchRenameGo render outDir overwrite removeSrc preview step fuel
          files idx fs).2).map Prod.snd =
        (List.range ((batchRenameGo render outDir overwrite removeSrc preview step fuel
          files idx fs).2).length).map (fun (k : Nat) => idx + step * (k : Int)) := by
  intro files
  induction files with
  | nil => intro idx fs; simp [batchRenameGo]
  | cons f rest ih =>
    intro idx fs
    by_cases hf : fsIsFile fs f = true
    · by_cases hd : outDir ++ [render f idx] = f
      · simp only [batchRenameGo, hf, if_true, hd, if_pos]
        simp only [List.map_cons, List.length_cons]
        rw [range_map_progression, ih (idx + step) fs]
      · by_cases hs : (fsExists fs (outDir ++ [render f idx]) && (overwrite == "skip")) = true
        · simp only [batchRenameGo, hf, if_true, if_neg hd, if_pos hs]
          simp only [List.map_cons, List.length_cons]
          rw [range_map_progression, ih (idx + step) fs]
        · simp only [batchRenameGo, hf, if_true, if_neg hd, if_neg hs]
          simp only [List.map_cons, List.length_cons]
          rw [range_map_progression]
          rw [ih (idx + step)]
    · simp only [batchRenameGo, if_neg hf]
      exact ih idx fs

/-- C10: in the rename stage every file that reaches the naming step
consumes exactly one sequence index — the recorded indices form the
arithmetic progression `start, start+step, …` regardless of same-path or
skip-policy outcomes — and with a positive step the consumed indices are
strictly increasing, so an index consumed by a skipped file is never reused
by a later file. -/
theorem rename_index_consumed_exactly_once (render : Path → Int → String)
    (pattern : String) (outDir : Path) (overwrite : String)
    (removeSrc preview : Bool) (start step : Int) (fuel : Nat)
    (files : List Path) (fs : FS) (hpat : pattern ≠ "") :
    (((batchRename render pattern outDir overwrite removeSrc preview start step fuel
        files fs).2).map Prod.snd =
      (List.range ((batchRename render pattern outDir overwrite removeSrc preview start
        step fuel files fs).2).length).map (fun (k : Nat) => start + step * (k : Int))) ∧
    (1 ≤ step →
      (((batchRename render pattern outDir overwrite removeSrc preview start step fuel
        files fs).2).map Prod.snd).Pairwise (· < ·)) := by
  unfold batchRename
  rw [if_neg hpat]
  constructor
  · exact batchRenameGo_indices render outDir overwrite removeSrc preview step fuel
      files start fs
  · intro hstep
    rw [batchRenameGo_indices render outDir overwrite removeSrc preview step fuel
      files start fs]
    apply List.Pairwise.map
    · intro a b hab
      have : step * (a : Int) < step * (b : Int) := by
        have ha : (a : Int) < (b : Int) := by exact_mod_cast hab
        have hpos : (0 : Int) < step := by omega
        exact mul_lt_mul_of_pos_left ha hpos
      omega
    · exact List.pairwise_lt_range _

/-- File system for the C10 witness: one input file, existing directories. -/
def fsRenW : FS := fun p =>
  if p = (["in", "a.png"] : Path) then some (Entry.file 7)
  else if p = ([] : Path) ∨ p = (["in"] : Path) ∨ p = (["out"] : Path) then some Entry.dir
  else none

/-- C10 witness: the theorem applied at a concrete one-file run. -/
theorem rename_index_consumed_exactly_once_witness :
    (((batchRename (fun _ i => "n" ++ toString i ++ ".png") "p" ["out"] "skip"
        false true 5 1 2 [["in", "a.png"]] fsRenW).2).map Prod.snd =
      (List.range ((batchRename (fun _ i => "n" ++ toString i ++ ".png") "p" ["out"]
        "skip" false true 5 1 2 [["in", "a.png"]] fsRenW).2).length).map
        (fun (k : Nat) => 5 + 1 * (k : Int))) ∧
    ((((batchRename (fun _ i => "n" ++ toString i ++ ".png") "p" ["out"] "skip"
        false true 5 1 2 [["in", "a.png"]] fsRenW).2).map Prod.snd).Pairwise (· < ·)) := by
  obtain ⟨h1, h2⟩ := rename_index_consumed_exactly_once
    (fun _ i => "n" ++ toString i ++ ".png") "p" ["out"] "skip" false true 5 1 2
    [["in", "a.png"]] fsRenW (by decide)
  exact ⟨h1, h2 (by norm_num)⟩

/-! ## Dedupe stage over the file system (dedupe.py lines 35-93,
图片工具.py `_dedupe_stage` lines 2063-2133, `_simulate_delete`
lines 3287-3303) -/

/-- What a successful `Image.open` + `os.stat` yield for one file. -/
structure ImgMeta where
  size : Nat
  w : Nat
  h : Nat
  ah : Nat
  dh : Nat
  mtime : Int
  deriving DecidableEq, Repr

def mkRec (f : Path) (m : ImgMeta) : Rec := ⟨f, m.size, m.w, m.h, m.ah, m.dh, m.mtime⟩

/-- The hash-computation pass (dedupe.py lines 37-51): each worker decodes
one file and yields a record, or nothing on decode failure.  The thread
pool appends results in completion order, so the grouping loop receives
some permutation of this list; the statements below quantify over that
permutation where it matters. -/
def hashRecords (decode : Path → Option ImgMeta) (files : List Path) : List Rec :=
  files.filterMap (fun f => (decode f).map (mkRec f))

/-- `_simulate_delete` (图片工具.py lines 3287-3303): move the "deleted"
file into the cache `_trash` directory, avoiding同名 collisions with the
`_i` suffix loop. -/
def simulateDelete (cacheRoot : Path) (fuel : Nat) (p : Path) (fs : FS) : FS :=
  let trash := cacheRoot ++ ["_trash"]
  let fs1 := mkdirs trash fs
  let target := trash ++ [basename p]
  let target2 :=
    if fsExists fs1 target then
      let se := pySplitext (basename p)
      trash ++ [nncFsGo fs1 trash se.1 se.2 1 fuel]
    else target
  moveFile p target2 fs1

/-- One non-keeper action (dedupe.py lines 71-87): the `delete` action in
preview routes through the injected simulate-delete and in commit through
`safe_delete`; the `move` action does nothing in preview and in commit
moves into the move directory with conflict avoidance; `list` keeps. -/
def dedupeAct (simDel : Path → FS → FS) (action : String) (moveDir : Path)
    (preview : Bool) (fuel : Nat) (p : Path) (fs : FS) : FS :=
  if action = "delete" then
    if preview then simDel p fs else removeFile p fs
  else if action = "move" ∧ moveDir ≠ [] then
    if preview then fs
    else
      let fs1 := mkdirs moveDir fs
      let target := moveDir ++ [basename p]
      let target2 := if fsExists fs1 target then nextNonConflictFs fs1 target fuel
        else target
      moveFile p target2 fs1
  else fs

/-- The dedupe stage (dedupe.py lines 35-93): group the records, keep one
member per duplicate group (Python's identity-based `x is not keep` skips
exactly the keeper's position, which is the first occurrence of its value
since the keeper is the first extremum — modelled by `List.erase`), act on
the others, and pass through every path not in a duplicate group.  The
record list is a parameter: the source collects it from the worker pool in
completion order. -/
def dedupeStage (simDel : Path → FS → FS) (keepMode action : String)
    (moveDir : Path) (th : Nat) (preview : Bool) (fuel : Nat)
    (infos : List Rec) (files : List Path) (fs : FS) : FS × List Path :=
  let dup := dupGroups th infos
  let res := (sortByLenDesc dup).foldl (fun (acc : FS × List Path) g =>
    let keep := keepOf keepMode g
    let fs' := (g.erase keep).foldl
      (fun fsa o => dedupeAct simDel action moveDir preview fuel o.path fsa) acc.1
    (fs', acc.2 ++ [keep.path])) (fs, [])
  let dupPaths := (dup.map (fun g => g.map Rec.path)).flatten
  (res.1, res.2 ++ files.filter (fun p => decide (p ∉ dupPaths)))

lemma hashRecords_path {decode : Path → Option ImgMeta} {files : List Path}
    {r : Rec} (h : r ∈ hashRecords decode files) :
    r.path ∈ files ∧ (decode r.path).map (mkRec r.path) = some r := by
  unfold hashRecords at h
  obtain ⟨f, hf, hmap⟩ := List.mem_filterMap.mp h
  cases hd : decode f with
  | none => rw [hd] at hmap; simp at hmap
  | some m =>
    rw [hd] at hmap
    simp at hmap
    subst hmap
    refine ⟨hf, ?_⟩
    rw [show (mkRec f m).path = f from rfl, hd]
    rfl

/-- C8: when decode fails for a path in the dedupe stage, no record with
that path enters any group, the path still appears unchanged in the stage's
output list, and every other file's presence in the output is unaffected —
the stage is total, so a single failure never aborts the run. -/
theorem dedupe_decode_failure_passthrough
    (decode : Path → Option ImgMeta) (simDel : Path → FS → FS)
    (keepMode action : String) (moveDir : Path) (th : Nat) (preview : Bool)
    (fuel : Nat) (files : List Path) (fs : FS) (infos : List Rec) (p : Path)
    (hperm : infos.Perm (hashRecords decode files))
    (hp : p ∈ files) (hfail : decode p = none) :
    (∀ g ∈ groupRecs th infos, ∀ r ∈ g, r.path ≠ p) ∧
    p ∈ (dedupeStage simDel keepMode action moveDir th preview fuel infos files fs).2 ∧
    (∀ q, q ≠ p →
      (q ∈ (dedupeStage simDel keepMode action moveDir th preview fuel infos files fs).2 ↔
        q ∈ (dedupeStage simDel keepMode action moveDir th preview fuel infos
          (files.filter (fun x => decide (x ≠ p))) fs).2)) := by
  have hnorec : ∀ g ∈ groupRecs th infos, ∀ r ∈ g, r.path ≠ p := by
    intro g hg r hr hpath
    have hrinfos : r ∈ infos :=
      (flatten_groupRecs th infos).mem_iff.mp (List.mem_flatten.mpr ⟨g, hg, hr⟩)
    have hrhash : r ∈ hashRecords decode files := hperm.mem_iff.mp hrinfos
    obtain ⟨_, hmap⟩ := hashRecords_path hrhash
    rw [hpath, hfail] at hmap
    simp at hmap
  have hnodup : p ∉ ((dupGroups th infos).map (fun g => g.map Rec.path)).flatten := by
    intro hmem
    obtain ⟨l, hl, hpin⟩ := List.mem_flatten.mp hmem
    obtain ⟨g, hg, hgl⟩ := List.mem_map.mp hl
    subst hgl
    obtain ⟨r, hr, hrp⟩ := List.mem_map.mp hpin
    exact hnorec g (List.mem_of_mem_filter hg) r hr hrp
  refine ⟨hnorec, ?_, ?_⟩
  · unfold dedupeStage
    apply List.mem_append.mpr
    right
    apply List.mem_filter.mpr
    exact ⟨hp, by simpa using hnodup⟩
  · intro q hq
    unfold dedupeStage
    simp only [List.mem_append, List.mem_filter, decide_eq_true_eq]
    constructor
    · rintro (h | ⟨hmem, hnd⟩)
      · exact Or.inl h
      · exact Or.inr ⟨⟨hmem, hq⟩, hnd⟩
    · rintro (h | ⟨⟨hmem, _⟩, hnd⟩)
      · exact Or.inl h
      · exact Or.inr ⟨hmem, hnd⟩

/-- Decode oracle for the C8 witness: `a.png` and `b.png` decode to the
same hashes, `bad.png` fails to decode. -/
def decodeW : Path → Option ImgMeta := fun p =>
  if p = (["in", "a.png"] : Path) then some ⟨10, 4, 3, 5, 9, 100⟩
  else if p = (["in", "b.png"] : Path) then some ⟨20, 2, 2, 5, 9, 50⟩
  else none

/-- C8 witness at a concrete three-file run with one decode failure. -/
theorem dedupe_decode_failure_passthrough_witness :
    (∀ g ∈ groupRecs 0 (hashRecords decodeW [["in", "a.png"], ["in", "b.png"], ["in", "bad.png"]]),
      ∀ r ∈ g, r.path ≠ (["in", "bad.png"] : Path)) ∧
    (["in", "bad.png"] : Path) ∈ (dedupeStage (fun _ fsa => fsa) "first" "list" [] 0 true 2
      (hashRecords decodeW [["in", "a.png"], ["in", "b.png"], ["in", "bad.png"]])
      [["in", "a.png"], ["in", "b.png"], ["in", "bad.png"]] (fun _ => none)).2 := by
  obtain ⟨h1, h2, _⟩ := dedupe_decode_failure_passthrough decodeW (fun _ fsa => fsa)
    "first" "list" [] 0 true 2 [["in", "a.png"], ["in", "b.png"], ["in", "bad.png"]]
    (fun _ => none)
    (hashRecords decodeW [["in", "a.png"], ["in", "b.png"], ["in", "bad.png"]])
    ["in", "bad.png"] (List.Perm.refl _) (by decide) (by decide)
  exact ⟨h1, h2⟩

/-! ## The monolithic preview pipeline (图片工具.py `_pipeline` lines
1968-2030) and its stages -/

/-- `_copy_input_to_cache` (lines 1912-1960): stage every input file into
`cacheInput` under its path relative to the input root, creating parent
directories; files whose copy raises (not a file any more) are dropped from
the staged list. -/
def copyInputGo (inputDir cacheInput : Path) : List Path → FS → FS × List Path
  | [], fs => (fs, [])
  | f :: rest, fs =>
    let cacheF := cacheInput ++ relComps f inputDir
    let fs1 := mkdirs cacheF.dropLast fs
    if fsIsFile fs1 f then
      let r := copyInputGo inputDir cacheInput rest (copy2 f cacheF fs1)
      (r.1, cacheF :: r.2)
    else
      let r := copyInputGo inputDir cacheInput rest fs1
      (r.1, r.2)

/-- One file of `_ratio_classify_stage` (lines 2476-2539).  The pure
ratio/animation labelling (lines 2482-2506: decode, `w/h` float ratio,
tolerance comparison, `AM/` prefix) is abstracted as `judge`: `none` models
the pass-through branches (decode failure, `h = 0`), `some label` the
chosen label path (a list, since an animated label `AM/x` joins as two
components).  Both run modes copy and both resolve conflicts with the
`_i` suffix loop, so no mode flag is needed. -/
def classifyOne (judge : Path → Option (List String)) (baseOut : Path)
    (fuel : Nat) (p : Path) (fs : FS) : FS × Path :=
  if fsIsFile fs p then
    match judge p with
    | none => (fs, p)
    | some label =>
      let dirRatio := baseOut ++ label
      let fs1 := mkdirs dirRatio fs
      let dest := dirRatio ++ [basename p]
      if dest = p then (fs1, p)
      else
        let dest2 :=
          if fsExists fs1 dest then
            let se := pySplitext (basename p)
            dirRatio ++ [nncFsGo fs1 dirRatio se.1 se.2 1 fuel]
          else dest
        (copy2 p dest2 fs1, dest2)
  else (fs, p)

/-- `_ratio_classify_stage` over the staged file list (sequential model of
the worker pool; completion order only permutes the result list). -/
def classifyStage (judge : Path → Option (List String)) (baseOut : Path)
    (fuel : Nat) : List Path → FS → FS × List Path
  | [], fs => (fs, [])
  | p :: rest, fs =>
    let one := classifyOne judge baseOut fuel p fs
    let r := classifyStage judge baseOut fuel rest one.1
    (r.1, one.2 :: r.2)

/-- `norm_ext` (utils.py lines 21-23): lower-cased extension without dots,
`jpeg` collapsed to `jpg`. -/
def normExt (name : String) : String :=
  let s := String.mk ((((pySplitext name).2).toList.map Char.toLower).dropWhile
    (fun c => c = '.'))
  if s = "jpeg" then "jpg" else s

def stemOf (name : String) : String := (pySplitext name).1

/-- `_copy_file_without_convert` (lines 1336-1367): copy a
skipped-conversion file under the final directory, keeping the path relative
to the cache root unless it escapes. -/
def copyFileWithoutConvert (cacheRoot finalDir : Path) (f : Path) (fs : FS) :
    FS × Option Path :=
  let rel := relComps f cacheRoot
  let dst := if relStartsDotDot rel then finalDir ++ [basename f] else finalDir ++ rel
  let fs1 := mkdirs dst.dropLast fs
  if dst = f then (fs1, some dst)
  else if fsIsFile fs1 f then (copy2 f dst fs1, some dst)
  else (fs1, none)

/-- The format-skip pre-pass of `_convert_stage_only` (lines 2713-2735):
files whose decoded format is in the skip set are copied unconverted and
собраны separately; the rest continue to conversion. -/
def convertSkipPass (skipJudge : Path → Bool) (cacheRoot finalDir : Path) :
    List Path → FS → FS × (List Path × List Path)
  | [], fs => (fs, ([], []))
  | f :: rest, fs =>
    if skipJudge f then
      let one := copyFileWithoutConvert cacheRoot finalDir f fs
      let r := convertSkipPass skipJudge cacheRoot finalDir rest one.1
      (r.1, (r.2.1, (match one.2 with | some d => d | none => f) :: r.2.2))
    else
      let r := convertSkipPass skipJudge cacheRoot finalDir rest fs
      (r.1, (f :: r.2.1, r.2.2))

/-- One file of the conversion loop `do_one` (lines 2760-2796): either the
no-conversion placeholder copy, or the external encoder (`convert_one`,
abstracted as `conv`; `none` models a failed conversion, which passes the
original path forward). -/
def convertOne (conv : Path → Option Nat) (enableConvert : Bool) (fmt : String)
    (processSame : Bool) (cacheRoot finalDir : Path) (f : Path) (fs : FS) :
    FS × Path :=
  let srcExt := normExt (basename f)
  let tgtFmt := if enableConvert then fmt else srcExt
  let needConvert := enableConvert && (decide (srcExt ≠ fmt) || processSame)
  let dstDir := finalDir ++ relComps f.dropLast cacheRoot
  if needConvert then
    let fs1 := mkdirs dstDir fs
    let dest := dstDir ++ [stemOf (basename f) ++ "." ++ tgtFmt]
    match conv f with
    | some c => (writeFile dest c fs1, dest)
    | none => (fs1, f)
  else
    let fs1 := mkdirs dstDir fs
    let dest := dstDir ++ [basename f]
    if fsExists fs1 dest then (fs1, dest) else (copy2 f dest fs1, dest)

/-- The sequential conversion loop (results are stored by index, so the
output order is the input order). -/
def convertMain (conv : Path → Option Nat) (fmt : String) (processSame : Bool)
    (cacheRoot finalDir : Path) : List Path → FS → FS × List Path
  | [], fs => (fs, [])
  | f :: rest, fs =>
    let one := convertOne conv true fmt processSame cacheRoot finalDir f fs
    let r := convertMain conv fmt processSame cacheRoot finalDir rest one.1
    (r.1, one.2 :: r.2)

/-- `_convert_stage_only` (lines 2689-2812): optional skip pre-pass, main
conversion loop, then converted results followed by the skipped copies. -/
def convertStage (skipJudge : Path → Bool) (hasSkip : Bool)
    (conv : Path → Option Nat) (fmt : String) (processSame : Bool)
    (cacheRoot finalDir : Path) (files : List Path) (fs : FS) : FS × List Path :=
  let pass := if hasSkip then convertSkipPass skipJudge cacheRoot finalDir files fs
    else (fs, (files, []))
  let main := convertMain conv fmt processSame cacheRoot finalDir pass.2.1 pass.1
  (main.1, main.2 ++ pass.2.2)

/-- `_process_rename_file` (lines 2860-2898) on the cache: the pure name
computation (lines 2862-2874) is abstracted as `render`; the relative
directory, conflict policies and the unconditional copy (line 2890) are
embedded. -/
def processRenameFile (render : Path → Int → String) (overwrite : String)
    (preview : Bool) (outDirR classRoot : Path) (fuel : Nat) (f : Path)
    (idx step : Int) (fs : FS) : FS × Int :=
  let finalName := render f idx
  let targetDir := outDirR ++ relComps f.dropLast classRoot
  let fs1 := mkdirs targetDir fs
  let dest := targetDir ++ [finalName]
  if dest = f then (fs1, idx + step)
  else if fsExists fs1 dest && (overwrite == "skip") then (fs1, idx + step)
  else
    let dest2 :=
      if fsExists fs1 dest then
        if overwrite == "rename" then
          if preview then targetDir ++ [finalName ++ "(预览改名)"]
          else nextNonConflictFs fs1 dest fuel
        else dest
      else dest
    (copy2 f dest2 fs1, idx + step)

/-- The per-directory loop body of `_rename_stage_only` (isfile guard plus
`_process_rename_file`). -/
def renameStageGo (render : Path → Int → String) (overwrite : String)
    (preview : Bool) (outDirR classRoot : Path) (fuel : Nat) (step : Int) :
    List Path → Int → FS → FS
  | [], _, fs => fs
  | f :: rest, idx, fs =>
    if fsIsFile fs f then
      let one := processRenameFile render overwrite preview outDirR classRoot fuel
        f idx step fs
      renameStageGo render overwrite preview outDirR classRoot fuel step rest one.2 one.1
    else renameStageGo render overwrite preview outDirR classRoot fuel step rest idx fs

/-- Insertion-ordered grouping by directory (`defaultdict` of lines
2829-2834). -/
def insertAssocAppend (key : Path) (f : Path) :
    List (Path × List Path) → List (Path × List Path)
  | [] => [(key, [f])]
  | (k, l) :: t =>
    if k = key then (k, l ++ [f]) :: t else (k, l) :: insertAssocAppend key f t

def groupByDir (files : List Path) : List (Path × List Path) :=
  files.foldl (fun acc f => insertAssocAppend f.dropLast f acc) []

/-- `_rename_stage_only` (lines 2814-2849): empty-pattern early return;
with classification on, each directory group restarts from the start
index, otherwise one sequential pass. -/
def renameStage (render : Path → Int → String) (overwrite : String)
    (preview : Bool) (outDirR classRoot : Path) (fuel : Nat)
    (classifyOn : Bool) (pattern : String) (start step : Int)
    (files : List Path) (fs : FS) : FS :=
  if pattern = "" then fs
  else if classifyOn then
    (groupByDir files).foldl
      (fun fsa grp =>
        renameStageGo render overwrite preview outDirR classRoot fuel step
          grp.2 start fsa) fs
  else renameStageGo render overwrite preview outDirR classRoot fuel step files start fs

/-- `_copy_files_to_final` (lines 1874-1911), used when no stage is
enabled: copy every staged file to the final directory under its path
relative to the cache input directory. -/
def copyFilesToFinal (cacheRoot finalDir : Path) : List Path → FS → FS
  | [], fs => fs
  | f :: rest, fs =>
    if fsExists fs f then
      let dest := finalDir ++ relComps f (cacheRoot ++ ["input"])
      let fs1 := mkdirs dest.dropLast fs
      copyFilesToFinal cacheRoot finalDir rest (copy2 f dest fs1)
    else copyFilesToFinal cacheRoot finalDir rest fs

/-- The full preview-mode pipeline `_pipeline` (lines 1968-2030) in a fresh
session: ensure the shadow workspace, stage the inputs into `input`, then
run the enabled stages — classify, convert, dedupe (preview actions route
through `_simulate_delete` into `_trash`), rename — and, with no stage
enabled, the plain copy to `_final`.  Preview mode stops here: no
finalize-to-output, no source purge. -/
def previewPipeline (judge : Path → Option (List String))
    (skipJudge : Path → Bool) (hasSkip : Bool) (conv : Path → Option Nat)
    (fmt : String) (processSame : Bool) (decode : Path → Option ImgMeta)
    (keepMode action : String) (moveDir : Path) (th : Nat)
    (render : Path → Int → String) (overwrite pattern : String) (start step : Int)
    (classifyOn convertOn dedupeOn renameOn : Bool)
    (outVar cwd inputDir : Path) (fuel : Nat)
    (files : List Path) (fs : FS) : FS × List Path :=
  let cache := cachePath outVar cwd
  let finalDir := cache ++ ["_final"]
  let s1 := ensureCacheDir outVar cwd ⟨none, none, none, fs⟩
  let fs1 := mkdirs (cache ++ ["input"]) s1.fs
  let r0 := copyInputGo inputDir (cache ++ ["input"]) files fs1
  let r1 := if classifyOn then classifyStage judge finalDir fuel r0.2 r0.1
    else (r0.1, r0.2)
  let r2 := if convertOn then
      convertStage skipJudge hasSkip conv fmt processSame cache finalDir r1.2 r1.1
    else (r1.1, r1.2)
  let r3 := if dedupeOn then
      dedupeStage (simulateDelete cache fuel) keepMode action moveDir th true fuel
        (hashRecords decode r2.2) r2.2 r2.1
    else (r2.1, r2.2)
  let fs4 := if renameOn then
      renameStage render overwrite true finalDir cache fuel classifyOn pattern
        start step r3.2 r3.1
    else r3.1
  let fs5 := if classifyOn ∨ convertOn ∨ dedupeOn ∨ renameOn then fs4
    else copyFilesToFinal cache finalDir r3.2 fs4
  (fs5, r3.2)

/-! ## Frame lemmas: preview writes stay under the cache root -/

/-- `f` lies strictly under `root`. -/
def UnderRoot (root f : Path) : Prop := ∃ rest, f = root ++ rest ∧ rest ≠ []

lemma prefix_of_underRoot {root f : Path} (h : UnderRoot root f) : root <+: f := by
  obtain ⟨rest, rfl, _⟩ := h
  exact List.prefix_append root rest

lemma underRoot_append_cons (root : Path) (x : String) (l : List String) :
    UnderRoot root (root ++ x :: l) := ⟨x :: l, rfl, by simp⟩

lemma underRoot_of_append {root b : Path} (h : UnderRoot root b) (l : List String) :
    UnderRoot root (b ++ l) := by
  obtain ⟨rest, rfl, hne⟩ := h
  exact ⟨rest ++ l, by simp, by simp [hne]⟩

lemma prefix_dropLast_cons (root : Path) (x : String) (l : List String) :
    root <+: ((root ++ [x]) ++ l).dropLast := by
  cases l with
  | nil =>
    simp only [List.append_nil, List.dropLast_concat]
    exact List.prefix_rfl
  | cons a t =>
    rw [List.dropLast_append_of_ne_nil _ (by simp)]
    exact (List.prefix_append root [x]).trans (List.prefix_append _ _)

lemma relComps_append (r t : List String) : relComps (r ++ t) r = t := by
  induction r with
  | nil => cases t <;> rfl
  | cons a r' ih =>
    show relComps (a :: (r' ++ t)) (a :: r') = t
    rw [relComps, if_pos rfl]
    exact ih

/-- `next_non_conflict` keeps the directory of its argument. -/
lemma nextNonConflictFs_shape (fs : FS) (D : Path) (n : String) (fuel : Nat) :
    ∃ c, nextNonConflictFs fs (D ++ [n]) fuel = D ++ [c] := by
  unfold nextNonConflictFs
  by_cases hx : fsExists fs (D ++ [n]) = true
  · rw [if_pos hx]
    simp only [List.dropLast_concat]
    exact ⟨_, rfl⟩
  · rw [if_neg hx]
    exact ⟨n, rfl⟩

lemma po_foldl {root : Path} {α : Type} (step : FS → α → FS) :
    ∀ (l : List α), (∀ a ∈ l, PreservesOutside root (fun fs => step fs a)) →
      PreservesOutside root (fun fs => l.foldl step fs) := by
  intro l
  induction l with
  | nil => intro _; exact po_id root
  | cons a t ih =>
    intro h
    have hcomp := po_comp (h a (by simp)) (ih (fun b hb => h b (by simp [hb])))
    intro fs hanc
    exact hcomp fs hanc

/-- Frame and staged-list facts for `_copy_input_to_cache`. -/
lemma copyInputGo_facts (root inputDir : Path) :
    ∀ (files : List Path) (fs : FS), OutAnc root fs →
      (∀ p, ¬ root <+: p →
        (copyInputGo inputDir (root ++ ["input"]) files fs).1 p = fs p) ∧
      OutAnc root (copyInputGo inputDir (root ++ ["input"]) files fs).1 ∧
      (∀ f ∈ (copyInputGo inputDir (root ++ ["input"]) files fs).2, UnderRoot root f) := by
  intro files
  induction files with
  | nil => intro fs hanc; exact ⟨fun _ _ => rfl, hanc, by simp [copyInputGo]⟩
  | cons f rest ih =>
    intro fs hanc
    have hmk : root <+: ((root ++ ["input"]) ++ relComps f inputDir).dropLast :=
      prefix_dropLast_cons root "input" (relComps f inputDir)
    have hcp : root <+: (root ++ ["input"]) ++ relComps f inputDir :=
      (List.prefix_append root ["input"]).trans (List.prefix_append _ _)
    obtain ⟨m1, m2⟩ := po_mkdirs hmk fs hanc
    by_cases hf : fsIsFile (mkdirs ((root ++ ["input"]) ++ relComps f inputDir).dropLast fs) f = true
    · obtain ⟨c1, c2⟩ := po_copy2 f hcp _ m2
      obtain ⟨r1, r2, r3⟩ := ih _ c2
      refine ⟨?_, ?_, ?_⟩
      · intro p hp
        simp only [copyInputGo, hf, if_true]
        rw [r1 p hp, c1 p hp, m1 p hp]
      · simp only [copyInputGo, hf, if_true]
        exact r2
      · intro g hg
        simp only [copyInputGo, hf, if_true, List.mem_cons] at hg
        rcases hg with hg | hg
        · subst hg
          rw [List.append_assoc]
          exact underRoot_append_cons root "input" (relComps f inputDir)
        · exact r3 g hg
    · obtain ⟨r1, r2, r3⟩ := ih _ m2
      refine ⟨?_, ?_, ?_⟩
      · intro p hp
        simp only [copyInputGo, hf, if_false, Bool.false_eq_true]
        rw [r1 p hp, m1 p hp]
      · simp only [copyInputGo, hf, if_false, Bool.false_eq_true]
        exact r2
      · intro g hg
        simp only [copyInputGo, hf, if_false, Bool.false_eq_true] at hg
        exact r3 g hg

/-- Frame and output facts for one classify step. -/
lemma classifyOne_facts (root : Path) (judge : Path → Option (List String))
    (baseOut : Path) (fuel : Nat) (p : Path) (hB : UnderRoot root baseOut) :
    ∀ fs, OutAnc root fs →
      (∀ q, ¬ root <+: q → (classifyOne judge baseOut fuel p fs).1 q = fs q) ∧
      OutAnc root (classifyOne judge baseOut fuel p fs).1 ∧
      ((classifyOne judge baseOut fuel p fs).2 = p ∨
        UnderRoot root (classifyOne judge baseOut fuel p fs).2) := by
  intro fs hanc
  by_cases hf : fsIsFile fs p = true
  · cases hj : judge p with
    | none =>
      have he : classifyOne judge baseOut fuel p fs = (fs, p) := by
        simp [classifyOne, hf, hj]
      rw [he]
      exact ⟨fun _ _ => rfl, hanc, Or.inl rfl⟩
    | some label =>
      have hdir : root <+: baseOut ++ label :=
        (prefix_of_underRoot hB).trans (List.prefix_append _ _)
      obtain ⟨m1, m2⟩ := po_mkdirs hdir fs hanc
      by_cases hd : (baseOut ++ label) ++ [basename p] = p
      · have he : classifyOne judge baseOut fuel p fs =
            (mkdirs (baseOut ++ label) fs, p) := by
          simp [classifyOne, hf, hj, hd]
        rw [he]
        exact ⟨m1, m2, Or.inl rfl⟩
      · have hshape : ∃ c, (if fsExists (mkdirs (baseOut ++ label) fs)
            ((baseOut ++ label) ++ [basename p]) = true then
              (baseOut ++ label) ++ [nncFsGo (mkdirs (baseOut ++ label) fs)
                (baseOut ++ label) (pySplitext (basename p)).1
                (pySplitext (basename p)).2 1 fuel]
            else (baseOut ++ label) ++ [basename p]) = (baseOut ++ label) ++ [c] := by
          by_cases hx : fsExists (mkdirs (baseOut ++ label) fs)
              ((baseOut ++ label) ++ [basename p]) = true
          · rw [if_pos hx]; exact ⟨_, rfl⟩
          · rw [if_neg hx]; exact ⟨_, rfl⟩
        obtain ⟨c, hc⟩ := hshape
        have he : classifyOne judge baseOut fuel p fs =
            (copy2 p ((baseOut ++ label) ++ [c]) (mkdirs (baseOut ++ label) fs),
              (baseOut ++ label) ++ [c]) := by
          simp only [classifyOne, hf, if_true, hj, if_neg hd]
          rw [hc]
        have hdest : root <+: (baseOut ++ label) ++ [c] :=
          hdir.trans (List.prefix_append _ _)
        obtain ⟨c1, c2⟩ := po_copy2 p hdest _ m2
        rw [he]
        refine ⟨?_, c2, ?_⟩
        · intro q hq
          show copy2 p ((baseOut ++ label) ++ [c]) (mkdirs (baseOut ++ label) fs) q = fs q
          rw [c1 q hq, m1 q hq]
        · right
          have := underRoot_of_append hB (label ++ [c])
          simpa [List.append_assoc] using this
  · have he : classifyOne judge baseOut fuel p fs = (fs, p) := by
      simp only [classifyOne, hf]
      rw [if_neg (by simp [hf])]
    rw [he]
    exact ⟨fun _ _ => rfl, hanc, Or.inl rfl⟩

/-- Frame and output facts for the classify stage. -/
lemma classifyStage_facts (root : Path) (judge : Path → Option (List String))
    (baseOut : Path) (fuel : Nat) (hB : UnderRoot root baseOut) :
    ∀ (files : List Path) (fs : FS), OutAnc root fs →
      (∀ f ∈ files, UnderRoot root f) →
      (∀ q, ¬ root <+: q → (classifyStage judge baseOut fuel files fs).1 q = fs q) ∧
      OutAnc root (classifyStage judge baseOut fuel files fs).1 ∧
      (∀ f ∈ (classifyStage judge baseOut fuel files fs).2, UnderRoot root f) := by
  intro files
  induction files with
  | nil => intro fs hanc _; exact ⟨fun _ _ => rfl, hanc, by simp [classifyStage]⟩
  | cons p rest ih =>
    intro fs hanc hin
    obtain ⟨o1, o2, o3⟩ := classifyOne_facts root judge baseOut fuel p hB fs hanc
    obtain ⟨r1, r2, r3⟩ := ih _ o2 (fun f hf => hin f (by simp [hf]))
    refine ⟨?_, ?_, ?_⟩
    · intro q hq
      show (classifyStage judge baseOut fuel rest
        (classifyOne judge baseOut fuel p fs).1).1 q = fs q
      rw [r1 q hq, o1 q hq]
    · exact r2
    · intro f hf
      have hf' : f ∈ (classifyOne judge baseOut fuel p fs).2 ::
          (classifyStage judge baseOut fuel rest
            (classifyOne judge baseOut fuel p fs).1).2 := hf
      rcases List.mem_cons.mp hf' with hf | hf
      · subst hf
        rcases o3 with h | h
        · rw [h]; exact hin p (by simp)
        · exact h
      · exact r3 f hf

lemma copyFileWithoutConvert_facts (root : Path) (x : String) (cr : Path) (f : Path) :
    ∀ fs, OutAnc root fs →
      (∀ q, ¬ root <+: q →
        (copyFileWithoutConvert cr (root ++ [x]) f fs).1 q = fs q) ∧
      OutAnc root (copyFileWithoutConvert cr (root ++ [x]) f fs).1 ∧
      (∀ d, (copyFileWithoutConvert cr (root ++ [x]) f fs).2 = some d →
        UnderRoot root d) := by
  intro fs hanc
  have hdst : ∃ X, (if relStartsDotDot (relComps f cr) then
      (root ++ [x]) ++ [basename f] else (root ++ [x]) ++ relComps f cr) =
        (root ++ [x]) ++ X := by
    by_cases hr : relStartsDotDot (relComps f cr) = true
    · rw [if_pos hr]; exact ⟨_, rfl⟩
    · rw [if_neg hr]; exact ⟨_, rfl⟩
  obtain ⟨X, hX⟩ := hdst
  have hu : UnderRoot root ((root ++ [x]) ++ X) := underRoot_of_append ⟨[x], rfl, by simp⟩ X
  have hmk : root <+: ((root ++ [x]) ++ X).dropLast := prefix_dropLast_cons root x X
  obtain ⟨m1, m2⟩ := po_mkdirs hmk fs hanc
  simp only [copyFileWithoutConvert]
  rw [hX]
  by_cases hd : (root ++ [x]) ++ X = f
  · rw [if_pos hd]
    exact ⟨m1, m2, fun d hdq => by
      rw [Option.some.injEq] at hdq
      subst hdq
      exact hu⟩
  · rw [if_neg hd]
    by_cases hf : fsIsFile (mkdirs ((root ++ [x]) ++ X).dropLast fs) f = true
    · rw [if_pos hf]
      obtain ⟨c1, c2⟩ := po_copy2 f (prefix_of_underRoot hu) _ m2
      refine ⟨?_, c2, ?_⟩
      · intro q hq
        show copy2 f ((root ++ [x]) ++ X)
          (mkdirs ((root ++ [x]) ++ X).dropLast fs) q = fs q
        rw [c1 q hq, m1 q hq]
      · intro d hdq
        rw [Option.some.injEq] at hdq
        subst hdq
        exact hu
    · rw [if_neg hf]
      exact ⟨m1, m2, fun d hdq => by simp at hdq⟩

lemma convertSkipPass_facts (root : Path) (x : String) (cr : Path)
    (skipJudge : Path → Bool) :
    ∀ (files : List Path) (fs : FS), OutAnc root fs →
      (∀ f ∈ files, UnderRoot root f) →
      (∀ q, ¬ root <+: q →
        (convertSkipPass skipJudge cr (root ++ [x]) files fs).1 q = fs q) ∧
      OutAnc root (convertSkipPass skipJudge cr (root ++ [x]) files fs).1 ∧
      (∀ f ∈ (convertSkipPass skipJudge cr (root ++ [x]) files fs).2.1, UnderRoot root f) ∧
      (∀ f ∈ (convertSkipPass skipJudge cr (root ++ [x]) files fs).2.2, UnderRoot root f) := by
  intro files
  induction files with
  | nil =>
    intro fs hanc _
    exact ⟨fun _ _ => rfl, hanc, by simp [convertSkipPass], by simp [convertSkipPass]⟩
  | cons a rest ih =>
    intro fs hanc hin
    by_cases hs : skipJudge a = true
    · obtain ⟨o1, o2, o3⟩ := copyFileWithoutConvert_facts root x cr a fs hanc
      obtain ⟨r1, r2, r3, r4⟩ := ih _ o2 (fun y hy => hin y (by simp [hy]))
      cases hopt : (copyFileWithoutConvert cr (root ++ [x]) a fs).2 with
      | none =>
        have hstep : convertSkipPass skipJudge cr (root ++ [x]) (a :: rest) fs =
            ((convertSkipPass skipJudge cr (root ++ [x]) rest
                (copyFileWithoutConvert cr (root ++ [x]) a fs).1).1,
              ((convertSkipPass skipJudge cr (root ++ [x]) rest
                (copyFileWithoutConvert cr (root ++ [x]) a fs).1).2.1,
               a :: (convertSkipPass skipJudge cr (root ++ [x]) rest
                (copyFileWithoutConvert cr (root ++ [x]) a fs).1).2.2)) := by
          simp [convertSkipPass, hs, hopt]
        rw [hstep]
        refine ⟨?_, r2, r3, ?_⟩
        · intro q hq
          show (convertSkipPass skipJudge cr (root ++ [x]) rest
            (copyFileWithoutConvert cr (root ++ [x]) a fs).1).1 q = fs q
          rw [r1 q hq, o1 q hq]
        · intro y hy
          rcases List.mem_cons.mp hy with hy' | hy'
          · rw [hy']; exact hin a (by simp)
          · exact r4 y hy'
      | some d =>
        have hstep : convertSkipPass skipJudge cr (root ++ [x]) (a :: rest) fs =
            ((convertSkipPass skipJudge cr (root ++ [x]) rest
                (copyFileWithoutConvert cr (root ++ [x]) a fs).1).1,
              ((convertSkipPass skipJudge cr (root ++ [x]) rest
                (copyFileWithoutConvert cr (root ++ [x]) a fs).1).2.1,
               d :: (convertSkipPass skipJudge cr (root ++ [x]) rest
                (copyFileWithoutConvert cr (root ++ [x]) a fs).1).2.2)) := by
          simp [convertSkipPass, hs, hopt]
        rw [hstep]
        refine ⟨?_, r2, r3, ?_⟩
        · intro q hq
          show (convertSkipPass skipJudge cr (root ++ [x]) rest
            (copyFileWithoutConvert cr (root ++ [x]) a fs).1).1 q = fs q
          rw [r1 q hq, o1 q hq]
        · intro y hy
          rcases List.mem_cons.mp hy with hy' | hy'
          · rw [hy']; exact o3 d hopt
          · exact r4 y hy'
    · obtain ⟨r1, r2, r3, r4⟩ := ih fs hanc (fun y hy => hin y (by simp [hy]))
      have hstep : convertSkipPass skipJudge cr (root ++ [x]) (a :: rest) fs =
          ((convertSkipPass skipJudge cr (root ++ [x]) rest fs).1,
            (a :: (convertSkipPass skipJudge cr (root ++ [x]) rest fs).2.1,
             (convertSkipPass skipJudge cr (root ++ [x]) rest fs).2.2)) := by
        simp [convertSkipPass, hs]
      rw [hstep]
      refine ⟨r1, r2, ?_, r4⟩
      intro y hy
      rcases List.mem_cons.mp hy with hy' | hy'
      · rw [hy']; exact hin a (by simp)
      · exact r3 y hy'

lemma convertOne_facts (root : Path) (x : String) (cr : Path)
    (conv : Path → Option Nat) (fmt : String) (processSame : Bool) (f : Path) :
    ∀ fs, OutAnc root fs →
      (∀ q, ¬ root <+: q →
        (convertOne conv true fmt processSame cr (root ++ [x]) f fs).1 q = fs q) ∧
      OutAnc root (convertOne conv true fmt processSame cr (root ++ [x]) f fs).1 ∧
      ((convertOne conv true fmt processSame cr (root ++ [x]) f fs).2 = f ∨
        UnderRoot root (convertOne conv true fmt processSame cr (root ++ [x]) f fs).2) := by
  intro fs hanc
  have hdir : root <+: (root ++ [x]) ++ relComps f.dropLast cr :=
    (List.prefix_append root [x]).trans (List.prefix_append _ _)
  obtain ⟨m1, m2⟩ := po_mkdirs hdir fs hanc
  have hund : ∀ nm : String,
      UnderRoot root (((root ++ [x]) ++ relComps f.dropLast cr) ++ [nm]) := by
    intro nm
    exact underRoot_of_append (underRoot_of_append ⟨[x], rfl, by simp⟩ _) [nm]
  by_cases hneed : (normExt (basename f) ≠ fmt ∨ processSame = true)
  · cases hconv : conv f with
    | some c =>
      have he : convertOne conv true fmt processSame cr (root ++ [x]) f fs =
          (writeFile (((root ++ [x]) ++ relComps f.dropLast cr) ++
              [stemOf (basename f) ++ "." ++ fmt]) c
            (mkdirs ((root ++ [x]) ++ relComps f.dropLast cr) fs),
           ((root ++ [x]) ++ relComps f.dropLast cr) ++
              [stemOf (basename f) ++ "." ++ fmt]) := by
        simp [convertOne, hneed, hconv]
      rw [he]
      obtain ⟨w1, w2⟩ := po_writeFile c (prefix_of_underRoot (hund _)) _ m2
      refine ⟨?_, w2, Or.inr (hund _)⟩
      intro q hq
      show writeFile (((root ++ [x]) ++ relComps f.dropLast cr) ++
          [stemOf (basename f) ++ "." ++ fmt]) c
          (mkdirs ((root ++ [x]) ++ relComps f.dropLast cr) fs) q = fs q
      rw [w1 q hq, m1 q hq]
    | none =>
      have he : convertOne conv true fmt processSame cr (root ++ [x]) f fs =
          (mkdirs ((root ++ [x]) ++ relComps f.dropLast cr) fs, f) := by
        simp [convertOne, hneed, hconv]
      rw [he]
      exact ⟨m1, m2, Or.inl rfl⟩
  · by_cases hx : fsExists (mkdirs ((root ++ [x]) ++ relComps f.dropLast cr) fs)
        (((root ++ [x]) ++ relComps f.dropLast cr) ++ [basename f]) = true
    · have he : convertOne conv true fmt processSame cr (root ++ [x]) f fs =
          (mkdirs ((root ++ [x]) ++ relComps f.dropLast cr) fs,
           ((root ++ [x]) ++ relComps f.dropLast cr) ++ [basename f]) := by
        have hx' := hx
        simp only [List.append_assoc, List.singleton_append,
          List.cons_append, List.nil_append] at hx'
        simp [convertOne, hneed, hx']
      rw [he]
      exact ⟨m1, m2, Or.inr (hund _)⟩
    · have he : convertOne conv true fmt processSame cr (root ++ [x]) f fs =
          (copy2 f (((root ++ [x]) ++ relComps f.dropLast cr) ++ [basename f])
            (mkdirs ((root ++ [x]) ++ relComps f.dropLast cr) fs),
           ((root ++ [x]) ++ relComps f.dropLast cr) ++ [basename f]) := by
        have hx' := hx
        simp only [List.append_assoc, List.singleton_append,
          List.cons_append, List.nil_append] at hx'
        simp [convertOne, hneed, hx']
      rw [he]
      obtain ⟨c1, c2⟩ := po_copy2 f (prefix_of_underRoot (hund _)) _ m2
      refine ⟨?_, c2, Or.inr (hund _)⟩
      intro q hq
      show copy2 f (((root ++ [x]) ++ relComps f.dropLast cr) ++ [basename f])
          (mkdirs ((root ++ [x]) ++ relComps f.dropLast cr) fs) q = fs q
      rw [c1 q hq, m1 q hq]

lemma convertMain_facts (root : Path) (x : String) (cr : Path)
    (conv : Path → Option Nat) (fmt : String) (processSame : Bool) :
    ∀ (files : List Path) (fs : FS), OutAnc root fs →
      (∀ f ∈ files, UnderRoot root f) →
      (∀ q, ¬ root <+: q →
        (convertMain conv fmt processSame cr (root ++ [x]) files fs).1 q = fs q) ∧
      OutAnc root (convertMain conv fmt processSame cr (root ++ [x]) files fs).1 ∧
      (∀ f ∈ (convertMain conv fmt processSame cr (root ++ [x]) files fs).2,
        UnderRoot root f) := by
  intro files
  induction files with
  | nil => intro fs hanc _; exact ⟨fun _ _ => rfl, hanc, by simp [convertMain]⟩
  | cons f rest ih =>
    intro fs hanc hin
    obtain ⟨o1, o2, o3⟩ := convertOne_facts root x cr conv fmt processSame f fs hanc
    obtain ⟨r1, r2, r3⟩ := ih _ o2 (fun g hg => hin g (by simp [hg]))
    refine ⟨?_, r2, ?_⟩
    · intro q hq
      show (convertMain conv fmt processSame cr (root ++ [x]) rest
        (convertOne conv true fmt processSame cr (root ++ [x]) f fs).1).1 q = fs q
      rw [r1 q hq, o1 q hq]
    · intro g hg
      have hg' : g = (convertOne conv true fmt processSame cr (root ++ [x]) f fs).2 ∨
          g ∈ (convertMain conv fmt processSame cr (root ++ [x]) rest
            (convertOne conv true fmt processSame cr (root ++ [x]) f fs).1).2 :=
        List.mem_cons.mp hg
      rcases hg' with hg' | hg'
      · subst hg'
        rcases o3 with h | h
        · rw [h]; exact hin f (by simp)
        · exact h
      · exact r3 g hg'

lemma convertStage_facts (root : Path) (x : String) (cr : Path)
    (skipJudge : Path → Bool) (hasSkip : Bool) (conv : Path → Option Nat)
    (fmt : String) (processSame : Bool) (files : List Path) (fs : FS)
    (hanc : OutAnc root fs) (hin : ∀ f ∈ files, UnderRoot root f) :
    (∀ q, ¬ root <+: q →
      (convertStage skipJudge hasSkip conv fmt processSame cr (root ++ [x])
        files fs).1 q = fs q) ∧
    OutAnc root (convertStage skipJudge hasSkip conv fmt processSame cr (root ++ [x])
      files fs).1 ∧
    (∀ f ∈ (convertStage skipJudge hasSkip conv fmt processSame cr (root ++ [x])
      files fs).2, UnderRoot root f) := by
  unfold convertStage
  by_cases hk : hasSkip = true
  · rw [if_pos hk]
    obtain ⟨p1, p2, p3, p4⟩ := convertSkipPass_facts root x cr skipJudge files fs hanc hin
    obtain ⟨m1, m2, m3⟩ := convertMain_facts root x cr conv fmt processSame _ _ p2 p3
    refine ⟨?_, m2, ?_⟩
    · intro q hq
      rw [m1 q hq, p1 q hq]
    · intro g hg
      rcases List.mem_append.mp hg with hg | hg
      · exact m3 g hg
      · exact p4 g hg
  · rw [if_neg hk]
    obtain ⟨m1, m2, m3⟩ := convertMain_facts root x cr conv fmt processSame files fs hanc hin
    refine ⟨m1, m2, ?_⟩
    intro g hg
    rcases List.mem_append.mp hg with hg | hg
    · exact m3 g hg
    · simp at hg

/-- Membership through the length-descending insertion step. -/
lemma mem_insertByLenDesc (g : List Rec) :
    ∀ (l : List (List Rec)) (g' : List Rec), g' ∈ insertByLenDesc g l →
      g' = g ∨ g' ∈ l := by
  intro l
  induction l with
  | nil =>
    intro g' hg'
    simp only [insertByLenDesc, List.mem_singleton] at hg'
    exact Or.inl hg'
  | cons h t ih =>
    intro g' hg'
    by_cases hlt : h.length < g.length
    · simp only [insertByLenDesc, if_pos hlt, List.mem_cons] at hg'
      rcases hg' with h1 | h1 | h1
      · exact Or.inl h1
      · exact Or.inr (by simp [h1])
      · exact Or.inr (by simp [h1])
    · simp only [insertByLenDesc, if_neg hlt, List.mem_cons] at hg'
      rcases hg' with h1 | h1
      · exact Or.inr (by simp [h1])
      · rcases ih g' h1 with h2 | h2
        · exact Or.inl h2
        · exact Or.inr (by simp [h2])

/-- The size-descending sort only reorders: members come from the input. -/
lemma mem_sortByLenDesc :
    ∀ (gs : List (List Rec)) (g : List Rec), g ∈ sortByLenDesc gs → g ∈ gs := by
  intro gs
  induction gs with
  | nil => intro g h; simpa [sortByLenDesc] using h
  | cons a t ih =>
    intro g h
    simp only [sortByLenDesc, List.foldr_cons] at h
    rcases mem_insertByLenDesc a _ g h with h1 | h1
    · simp [h1]
    · exact List.mem_cons_of_mem a (ih g h1)

/-- Every member of a duplicate group is one of the hashed records. -/
lemma dupGroups_mem_rec (th : Nat) (recs : List Rec) {g : List Rec} {o : Rec}
    (hg : g ∈ dupGroups th recs) (ho : o ∈ g) : o ∈ recs := by
  have hg' : g ∈ groupRecs th recs := (List.mem_filter.mp hg).1
  exact (flatten_groupRecs th recs).mem_iff.mp (List.mem_flatten.mpr ⟨g, hg', ho⟩)

lemma dupGroups_ne_nil (th : Nat) (recs : List Rec) {g : List Rec}
    (hg : g ∈ dupGroups th recs) : g ≠ [] :=
  groupRecs_ne_nil th recs g (List.mem_filter.mp hg).1

/-- `_simulate_delete` writes only into the trash subtree of the cache
root and removes only the given (cache-resident) path. -/
lemma po_simulateDelete {root p : Path} (hp : root <+: p) (fuel : Nat) :
    PreservesOutside root (simulateDelete root fuel p) := by
  intro fs hanc
  have htrash : root <+: root ++ ["_trash"] := List.prefix_append _ _
  obtain ⟨m1, m2⟩ := po_mkdirs htrash fs hanc
  have hshape : ∃ c, (if fsExists (mkdirs (root ++ ["_trash"]) fs)
      ((root ++ ["_trash"]) ++ [basename p]) = true then
        (root ++ ["_trash"]) ++ [nncFsGo (mkdirs (root ++ ["_trash"]) fs)
          (root ++ ["_trash"]) (pySplitext (basename p)).1
          (pySplitext (basename p)).2 1 fuel]
      else (root ++ ["_trash"]) ++ [basename p]) = (root ++ ["_trash"]) ++ [c] := by
    by_cases hx : fsExists (mkdirs (root ++ ["_trash"]) fs)
        ((root ++ ["_trash"]) ++ [basename p]) = true
    · rw [if_pos hx]; exact ⟨_, rfl⟩
    · rw [if_neg hx]; exact ⟨_, rfl⟩
  obtain ⟨c, hc⟩ := hshape
  have he : simulateDelete root fuel p fs =
      moveFile p ((root ++ ["_trash"]) ++ [c]) (mkdirs (root ++ ["_trash"]) fs) := by
    simp only [simulateDelete]
    rw [hc]
  obtain ⟨v1, v2⟩ := po_moveFile hp (htrash.trans (List.prefix_append _ _)) _ m2
  rw [he]
  exact ⟨fun q hq => (v1 q hq).trans (m1 q hq), v2⟩

/-- In preview mode a non-keeper action never touches paths outside the
root: the `delete` action routes through the injected simulate-delete,
`move` and `list` do nothing. -/
lemma po_dedupeAct {root : Path} (simDel : Path → FS → FS)
    (hsim : ∀ p, root <+: p → PreservesOutside root (simDel p))
    (action : String) (moveDir : Path) (fuel : Nat) (p : Path)
    (hp : root <+: p) :
    PreservesOutside root (fun fs => dedupeAct simDel action moveDir true fuel p fs) := by
  intro fs hanc
  show (∀ q, ¬ root <+: q → dedupeAct simDel action moveDir true fuel p fs q = fs q) ∧
    OutAnc root (dedupeAct simDel action moveDir true fuel p fs)
  by_cases ha : action = "delete"
  · have he : dedupeAct simDel action moveDir true fuel p fs = simDel p fs := by
      simp [dedupeAct, ha]
    rw [he]
    exact hsim p hp fs hanc
  · have he : dedupeAct simDel action moveDir true fuel p fs = fs := by
      simp [dedupeAct, ha]
    rw [he]
    exact ⟨fun _ _ => rfl, hanc⟩

/-- The preview fold over the sorted duplicate groups: writes stay under
the root and every collected keeper path lies under the root. -/
lemma dedupeFold_facts {root : Path} (simDel : Path → FS → FS)
    (hsim : ∀ p, root <+: p → PreservesOutside root (simDel p))
    (keepMode action : String) (moveDir : Path) (fuel : Nat) :
    ∀ (gs : List (List Rec)) (acc : FS × List Path),
      (∀ g ∈ gs, g ≠ [] ∧ ∀ o ∈ g, UnderRoot root o.path) →
      OutAnc root acc.1 →
      (∀ y ∈ acc.2, UnderRoot root y) →
      (∀ q, ¬ root <+: q →
        (gs.foldl (fun (a : FS × List Path) g =>
          ((g.erase (keepOf keepMode g)).foldl
            (fun fsa o => dedupeAct simDel action moveDir true fuel o.path fsa) a.1,
           a.2 ++ [(keepOf keepMode g).path])) acc).1 q = acc.1 q) ∧
      OutAnc root (gs.foldl (fun (a : FS × List Path) g =>
          ((g.erase (keepOf keepMode g)).foldl
            (fun fsa o => dedupeAct simDel action moveDir true fuel o.path fsa) a.1,
           a.2 ++ [(keepOf keepMode g).path])) acc).1 ∧
      (∀ y ∈ (gs.foldl (fun (a : FS × List Path) g =>
          ((g.erase (keepOf keepMode g)).foldl
            (fun fsa o => dedupeAct simDel action moveDir true fuel o.path fsa) a.1,
           a.2 ++ [(keepOf keepMode g).path])) acc).2, UnderRoot root y) := by
  intro gs
  induction gs with
  | nil => intro acc _ hanc hy; exact ⟨fun _ _ => rfl, hanc, hy⟩
  | cons g t ih =>
    intro acc hgs hanc hy
    have hone := po_foldl
      (fun fsa o => dedupeAct simDel action moveDir true fuel o.path fsa)
      (g.erase (keepOf keepMode g))
      (fun o ho => po_dedupeAct simDel hsim action moveDir fuel o.path
        (prefix_of_underRoot ((hgs g (by simp)).2 o (List.mem_of_mem_erase ho))))
    obtain ⟨s1, s2⟩ := hone acc.1 hanc
    have hkeep : UnderRoot root (keepOf keepMode g).path := by
      obtain ⟨hne, hmem⟩ := hgs g (by simp)
      cases hg : g with
      | nil => exact absurd hg hne
      | cons a l =>
        have := keepOf_mem keepMode a l
        rw [← hg] at this
        exact hmem _ (by rw [hg]; exact (by rw [← hg]; exact this))
    obtain ⟨r1, r2, r3⟩ := ih
      ((g.erase (keepOf keepMode g)).foldl
          (fun fsa o => dedupeAct simDel action moveDir true fuel o.path fsa) acc.1,
        acc.2 ++ [(keepOf keepMode g).path])
      (fun g' hg' => hgs g' (by simp [hg'])) s2
      (by
        intro y hyy
        rcases List.mem_append.mp hyy with h | h
        · exact hy y h
        · rw [List.mem_singleton.mp h]; exact hkeep)
    refine ⟨?_, ?_, ?_⟩
    · intro q hq
      simp only [List.foldl_cons]
      exact (r1 q hq).trans (s1 q hq)
    · simp only [List.foldl_cons]
      exact r2
    · intro y hyy
      simp only [List.foldl_cons] at hyy
      exact r3 y hyy

/-- Frame and output facts for the dedupe stage in preview mode. -/
lemma dedupeStage_facts {root : Path} (simDel : Path → FS → FS)
    (hsim : ∀ p, root <+: p → PreservesOutside root (simDel p))
    (keepMode action : String) (moveDir : Path) (th : Nat) (fuel : Nat)
    (infos : List Rec) (files : List Path) (fs : FS)
    (hanc : OutAnc root fs)
    (hrec : ∀ r ∈ infos, UnderRoot root r.path)
    (hin : ∀ f ∈ files, UnderRoot root f) :
    (∀ q, ¬ root <+: q →
      (dedupeStage simDel keepMode action moveDir th true fuel infos files fs).1 q = fs q) ∧
    OutAnc root (dedupeStage simDel keepMode action moveDir th true fuel infos files fs).1 ∧
    (∀ f ∈ (dedupeStage simDel keepMode action moveDir th true fuel infos files fs).2,
      UnderRoot root f) := by
  have hgs : ∀ g ∈ sortByLenDesc (dupGroups th infos),
      g ≠ [] ∧ ∀ o ∈ g, UnderRoot root o.path := by
    intro g hg
    have hg' := mem_sortByLenDesc _ g hg
    exact ⟨dupGroups_ne_nil th infos hg',
      fun o ho => hrec _ (dupGroups_mem_rec th infos hg' ho)⟩
  obtain ⟨F1, F2, F3⟩ := dedupeFold_facts simDel hsim keepMode action moveDir fuel
    (sortByLenDesc (dupGroups th infos)) (fs, []) hgs hanc (by simp)
  refine ⟨fun q hq => F1 q hq, F2, ?_⟩
  intro f hf
  have hf' : f ∈ ((sortByLenDesc (dupGroups th infos)).foldl
      (fun (a : FS × List Path) g =>
        ((g.erase (keepOf keepMode g)).foldl
          (fun fsa o => dedupeAct simDel action moveDir true fuel o.path fsa) a.1,
         a.2 ++ [(keepOf keepMode g).path])) (fs, [])).2 ++
      files.filter (fun p =>
        decide (p ∉ ((dupGroups th infos).map (fun g => g.map Rec.path)).flatten)) := hf
  rcases List.mem_append.mp hf' with h | h
  · exact F3 f h
  · exact hin f (List.mem_of_mem_filter h)

/-- One rename-stage file in preview mode: either the target directory is
merely created, or a single copy lands one component below it. -/
lemma processRenameFile_po (root : Path) (x : String) (classRoot : Path)
    (render : Path → Int → String) (overwrite : String) (fuel : Nat)
    (f : Path) (idx step : Int) :
    ∀ fs, OutAnc root fs →
      (∀ q, ¬ root <+: q →
        (processRenameFile render overwrite true (root ++ [x]) classRoot fuel
          f idx step fs).1 q = fs q) ∧
      OutAnc root (processRenameFile render overwrite true (root ++ [x]) classRoot fuel
        f idx step fs).1 := by
  intro fs hanc
  have hdir : root <+: (root ++ [x]) ++ relComps f.dropLast classRoot :=
    (List.prefix_append root [x]).trans (List.prefix_append _ _)
  obtain ⟨m1, m2⟩ := po_mkdirs hdir fs hanc
  have hcases : (processRenameFile render overwrite true (root ++ [x]) classRoot fuel
        f idx step fs).1
      = mkdirs ((root ++ [x]) ++ relComps f.dropLast classRoot) fs ∨
      ∃ c, (processRenameFile render overwrite true (root ++ [x]) classRoot fuel
        f idx step fs).1
      = copy2 f (((root ++ [x]) ++ relComps f.dropLast classRoot) ++ [c])
          (mkdirs ((root ++ [x]) ++ relComps f.dropLast classRoot) fs) := by
    simp only [processRenameFile]
    split
    · exact Or.inl rfl
    · split
      · exact Or.inl rfl
      · split
        · split
          · split
            · exact Or.inr ⟨_, rfl⟩
            · rename_i hpre
              exact absurd trivial hpre
          · exact Or.inr ⟨_, rfl⟩
        · exact Or.inr ⟨_, rfl⟩
  rcases hcases with h | ⟨c, h⟩
  · rw [h]
    exact ⟨m1, m2⟩
  · obtain ⟨c1, c2⟩ := po_copy2 f (hdir.trans (List.prefix_append _ _)) _ m2
    rw [h]
    exact ⟨fun q hq => (c1 q hq).trans (m1 q hq), c2⟩

/-- The per-directory rename loop keeps every write under the root. -/
lemma renameStageGo_po (root : Path) (x : String) (classRoot : Path)
    (render : Path → Int → String) (overwrite : String) (fuel : Nat) (step : Int) :
    ∀ (files : List Path) (idx : Int) (fs : FS), OutAnc root fs →
      (∀ q, ¬ root <+: q →
        renameStageGo render overwrite true (root ++ [x]) classRoot fuel step
          files idx fs q = fs q) ∧
      OutAnc root (renameStageGo render overwrite true (root ++ [x]) classRoot fuel step
        files idx fs) := by
  intro files
  induction files with
  | nil => intro idx fs hanc; exact ⟨fun _ _ => rfl, hanc⟩
  | cons f rest ih =>
    intro idx fs hanc
    by_cases hf : fsIsFile fs f = true
    · obtain ⟨p1, p2⟩ := processRenameFile_po root x classRoot render overwrite fuel
        f idx step fs hanc
      obtain ⟨r1, r2⟩ := ih
        (processRenameFile render overwrite true (root ++ [x]) classRoot fuel
          f idx step fs).2 _ p2
      constructor
      · intro q hq
        simp only [renameStageGo, hf, if_true]
        rw [r1 q hq, p1 q hq]
      · simp only [renameStageGo, hf, if_true]
        exact r2
    · obtain ⟨r1, r2⟩ := ih idx fs hanc
      constructor
      · intro q hq
        simp only [renameStageGo, hf, if_false, Bool.false_eq_true]
        rw [r1 q hq]
      · simp only [renameStageGo, hf, if_false, Bool.false_eq_true]
        exact r2

/-- The rename stage in preview mode keeps every write under the root. -/
lemma renameStage_po (root : Path) (x : String) (classRoot : Path)
    (render : Path → Int → String) (overwrite : String) (fuel : Nat)
    (classifyOn : Bool) (pattern : String) (start step : Int)
    (files : List Path) (fs : FS) (hanc : OutAnc root fs) :
    (∀ q, ¬ root <+: q →
      renameStage render overwrite true (root ++ [x]) classRoot fuel classifyOn
        pattern start step files fs q = fs q) ∧
    OutAnc root (renameStage render overwrite true (root ++ [x]) classRoot fuel
      classifyOn pattern start step files fs) := by
  by_cases hpat : pattern = ""
  · have he : renameStage render overwrite true (root ++ [x]) classRoot fuel classifyOn
        pattern start step files fs = fs := by
      simp [renameStage, hpat]
    rw [he]
    exact ⟨fun _ _ => rfl, hanc⟩
  · by_cases hcl : classifyOn = true
    · have he : renameStage render overwrite true (root ++ [x]) classRoot fuel classifyOn
          pattern start step files fs =
          (groupByDir files).foldl
            (fun fsa grp =>
              renameStageGo render overwrite true (root ++ [x]) classRoot fuel step
                grp.2 start fsa) fs := by
        simp [renameStage, hpat, hcl]
      rw [he]
      exact po_foldl
        (fun fsa grp =>
          renameStageGo render overwrite true (root ++ [x]) classRoot fuel step
            grp.2 start fsa)
        (groupByDir files)
        (fun grp _ => fun fs' hanc' =>
          renameStageGo_po root x classRoot render overwrite fuel step
            grp.2 start fs' hanc')
        fs hanc
    · have he : renameStage render overwrite true (root ++ [x]) classRoot fuel classifyOn
          pattern start step files fs =
          renameStageGo render overwrite true (root ++ [x]) classRoot fuel step
            files start fs := by
        simp [renameStage, hpat, hcl]
      rw [he]
      exact renameStageGo_po root x classRoot render overwrite fuel step files start fs hanc

/-- The final copy used when no stage is enabled writes only under the
root. -/
lemma copyFilesToFinal_po (root : Path) (x : String) (cr : Path) :
    ∀ (files : List Path) (fs : FS), OutAnc root fs →
      (∀ q, ¬ root <+: q →
        copyFilesToFinal cr (root ++ [x]) files fs q = fs q) ∧
      OutAnc root (copyFilesToFinal cr (root ++ [x]) files fs) := by
  intro files
  induction files with
  | nil => intro fs hanc; exact ⟨fun _ _ => rfl, hanc⟩
  | cons f rest ih =>
    intro fs hanc
    by_cases hf : fsExists fs f = true
    · have hmk : root <+: (((root ++ [x]) ++ relComps f (cr ++ ["input"])).dropLast) :=
        prefix_dropLast_cons root x (relComps f (cr ++ ["input"]))
      have hcp : root <+: (root ++ [x]) ++ relComps f (cr ++ ["input"]) :=
        (List.prefix_append root [x]).trans (List.prefix_append _ _)
      obtain ⟨m1, m2⟩ := po_mkdirs hmk fs hanc
      obtain ⟨c1, c2⟩ := po_copy2 f hcp _ m2
      obtain ⟨r1, r2⟩ := ih _ c2
      constructor
      · intro q hq
        simp only [copyFilesToFinal, hf, if_true]
        rw [r1 q hq, c1 q hq, m1 q hq]
      · simp only [copyFilesToFinal, hf, if_true]
        exact r2
    · obtain ⟨r1, r2⟩ := ih fs hanc
      constructor
      · intro q hq
        simp only [copyFilesToFinal, hf, if_false, Bool.false_eq_true]
        rw [r1 q hq]
      · simp only [copyFilesToFinal, hf, if_false, Bool.false_eq_true]
        exact r2

lemma trashPath_eq (outVar cwd : Path) :
    trashPath outVar cwd = cachePath outVar cwd ++ ["_trash"] := by
  unfold trashPath
  rw [cacheFixed_eq]

lemma innerFinal_eq (outVar cwd : Path) :
    innerFinal outVar cwd = (cachePath outVar cwd ++ ["_final"]) ++ ["_final"] := by
  unfold innerFinal
  rw [finalPath_eq]

/-- A state-dependent branch between two outside-preserving transformers
is outside-preserving. -/
lemma po_ite (root : Path) (c : FS → Bool) {t e : FS → FS}
    (ht : PreservesOutside root t) (he : PreservesOutside root e) :
    PreservesOutside root (fun fs => if c fs then t fs else e fs) := by
  intro fs hanc
  show (∀ q, ¬ root <+: q → (if c fs then t fs else e fs) q = fs q) ∧
    OutAnc root (if c fs then t fs else e fs)
  by_cases hc : c fs = true
  · rw [if_pos hc]
    exact ht fs hanc
  · rw [if_neg hc]
    exact he fs hanc

/-- The non-guarded ensure effect writes only under the cache root. -/
lemma po_ensureFs (outVar cwd : Path) :
    PreservesOutside (cachePath outVar cwd) (ensureFs outVar cwd) := by
  have hcf : cachePath outVar cwd <+: cacheFixed outVar cwd := by
    rw [cacheFixed_eq]
  have htr : cachePath outVar cwd <+: trashPath outVar cwd := by
    rw [trashPath_eq]
    exact List.prefix_append _ _
  have hfp : cachePath outVar cwd <+: finalPath outVar cwd := by
    rw [finalPath_eq]
    exact List.prefix_append _ _
  have hif : cachePath outVar cwd <+: innerFinal outVar cwd := by
    rw [innerFinal_eq, List.append_assoc]
    exact List.prefix_append _ _
  have h12 := po_comp (po_mkdirs hcf) (po_mkdirs htr)
  have h3 := po_ite (cachePath outVar cwd)
    (fun fs2 => fsExists fs2 (finalPath outVar cwd))
    (po_id (cachePath outVar cwd)) (po_mkdirs hfp)
  have h4 := po_ite (cachePath outVar cwd)
    (fun fs3 => fsIsDir fs3 (innerFinal outVar cwd))
    (po_rmtree hif) (po_id (cachePath outVar cwd))
  have hall := po_comp (po_comp h12 h3) h4
  intro fs hanc
  exact hall fs hanc

/-- C1 (amended, shadow-workspace pipeline): a preview run of the
monolithic pipeline, with any combination of stages enabled, changes no
path outside the preview cache root; in particular, when the declared
input tree is disjoint from the cache root, every path of the input tree
is byte-for-byte unchanged.  (The modular app has no shadow workspace and
violates the original claim; see the counterexample.) -/
theorem preview_pipeline_shadow_isolation
    (judge : Path → Option (List String)) (skipJudge : Path → Bool)
    (hasSkip : Bool) (conv : Path → Option Nat) (fmt : String)
    (processSame : Bool) (decode : Path → Option ImgMeta)
    (keepMode action : String) (moveDir : Path) (th : Nat)
    (render : Path → Int → String) (overwrite pattern : String)
    (start step : Int) (classifyOn convertOn dedupeOn renameOn : Bool)
    (outVar cwd inputDir : Path) (fuel : Nat) (files : List Path) (fs : FS)
    (hanc : OutAnc (cachePath outVar cwd) fs)
    (hd1 : ¬ inputDir <+: cachePath outVar cwd)
    (hd2 : ¬ cachePath outVar cwd <+: inputDir) :
    (∀ q, ¬ cachePath outVar cwd <+: q →
      (previewPipeline judge skipJudge hasSkip conv fmt processSame decode keepMode
        action moveDir th render overwrite pattern start step classifyOn convertOn
        dedupeOn renameOn outVar cwd inputDir fuel files fs).1 q = fs q) ∧
    (∀ q, inputDir <+: q →
      (previewPipeline judge skipJudge hasSkip conv fmt processSame decode keepMode
        action moveDir th render overwrite pattern start step classifyOn convertOn
        dedupeOn renameOn outVar cwd inputDir fuel files fs).1 q = fs q) := by
  have main : ∀ q, ¬ cachePath outVar cwd <+: q →
      (previewPipeline judge skipJudge hasSkip conv fmt processSame decode keepMode
        action moveDir th render overwrite pattern start step classifyOn convertOn
        dedupeOn renameOn outVar cwd inputDir fuel files fs).1 q = fs q := by
    intro q hq
    simp only [previewPipeline]
    set A : FS := (ensureCacheDir outVar cwd ⟨none, none, none, fs⟩).fs with hAdef
    set B : FS := mkdirs (cachePath outVar cwd ++ ["input"]) A with hBdef
    set r0 : FS × List Path :=
      copyInputGo inputDir (cachePath outVar cwd ++ ["input"]) files B with hr0def
    set r1 : FS × List Path :=
      (if classifyOn then
        classifyStage judge (cachePath outVar cwd ++ ["_final"]) fuel r0.2 r0.1
      else (r0.1, r0.2)) with hr1def
    set r2 : FS × List Path :=
      (if convertOn then
        convertStage skipJudge hasSkip conv fmt processSame (cachePath outVar cwd)
          (cachePath outVar cwd ++ ["_final"]) r1.2 r1.1
      else (r1.1, r1.2)) with hr2def
    set r3 : FS × List Path :=
      (if dedupeOn then
        dedupeStage (simulateDelete (cachePath outVar cwd) fuel) keepMode action
          moveDir th true fuel (hashRecords decode r2.2) r2.2 r2.1
      else (r2.1, r2.2)) with hr3def
    set fs4 : FS :=
      (if renameOn then
        renameStage render overwrite true (cachePath outVar cwd ++ ["_final"])
          (cachePath outVar cwd) fuel classifyOn pattern start step r3.2 r3.1
      else r3.1) with hf4def
    set fs5 : FS :=
      (if classifyOn ∨ convertOn ∨ dedupeOn ∨ renameOn then fs4
      else copyFilesToFinal (cachePath outVar cwd)
        (cachePath outVar cwd ++ ["_final"]) r3.2 fs4) with hf5def
    show fs5 q = fs q
    have hA : (∀ p, ¬ cachePath outVar cwd <+: p → A p = fs p) ∧
        OutAnc (cachePath outVar cwd) A := by
      have hA2 : A = ensureFs outVar cwd fs := hAdef.trans rfl
      rw [hA2]
      exact po_ensureFs outVar cwd fs hanc
    have hB : (∀ p, ¬ cachePath outVar cwd <+: p → B p = fs p) ∧
        OutAnc (cachePath outVar cwd) B := by
      obtain ⟨m1, m2⟩ := po_mkdirs
        (List.prefix_append (cachePath outVar cwd) ["input"]) A hA.2
      rw [hBdef]
      exact ⟨fun p hp => (m1 p hp).trans (hA.1 p hp), m2⟩
    have h0 : (∀ p, ¬ cachePath outVar cwd <+: p → r0.1 p = fs p) ∧
        OutAnc (cachePath outVar cwd) r0.1 ∧
        (∀ f ∈ r0.2, UnderRoot (cachePath outVar cwd) f) := by
      obtain ⟨c1, c2, c3⟩ := copyInputGo_facts (cachePath outVar cwd) inputDir
        files B hB.2
      rw [hr0def]
      exact ⟨fun p hp => (c1 p hp).trans (hB.1 p hp), c2, c3⟩
    have h1 : (∀ p, ¬ cachePath outVar cwd <+: p → r1.1 p = fs p) ∧
        OutAnc (cachePath outVar cwd) r1.1 ∧
        (∀ f ∈ r1.2, UnderRoot (cachePath outVar cwd) f) := by
      by_cases hcl : classifyOn = true
      · rw [hr1def, if_pos hcl]
        obtain ⟨c1, c2, c3⟩ := classifyStage_facts (cachePath outVar cwd) judge
          (cachePath outVar cwd ++ ["_final"]) fuel ⟨["_final"], rfl, by simp⟩
          r0.2 r0.1 h0.2.1 h0.2.2
        exact ⟨fun p hp => (c1 p hp).trans (h0.1 p hp), c2, c3⟩
      · rw [hr1def, if_neg hcl]
        exact ⟨h0.1, h0.2.1, h0.2.2⟩
    have h2 : (∀ p, ¬ cachePath outVar cwd <+: p → r2.1 p = fs p) ∧
        OutAnc (cachePath outVar cwd) r2.1 ∧
        (∀ f ∈ r2.2, UnderRoot (cachePath outVar cwd) f) := by
      by_cases hcv : convertOn = true
      · rw [hr2def, if_pos hcv]
        obtain ⟨c1, c2, c3⟩ := convertStage_facts (cachePath outVar cwd) "_final"
          (cachePath outVar cwd) skipJudge hasSkip conv fmt processSame
          r1.2 r1.1 h1.2.1 h1.2.2
        exact ⟨fun p hp => (c1 p hp).trans (h1.1 p hp), c2, c3⟩
      · rw [hr2def, if_neg hcv]
        exact ⟨h1.1, h1.2.1, h1.2.2⟩
    have h3 : (∀ p, ¬ cachePath outVar cwd <+: p → r3.1 p = fs p) ∧
        OutAnc (cachePath outVar cwd) r3.1 ∧
        (∀ f ∈ r3.2, UnderRoot (cachePath outVar cwd) f) := by
      by_cases hdd : dedupeOn = true
      · rw [hr3def, if_pos hdd]
        obtain ⟨c1, c2, c3⟩ := @dedupeStage_facts (cachePath outVar cwd)
          (simulateDelete (cachePath outVar cwd) fuel)
          (fun p hp => po_simulateDelete hp fuel) keepMode action moveDir th fuel
          (hashRecords decode r2.2) r2.2 r2.1 h2.2.1
          (fun r hr => h2.2.2 _ (hashRecords_path hr).1) h2.2.2
        exact ⟨fun p hp => (c1 p hp).trans (h2.1 p hp), c2, c3⟩
      · rw [hr3def, if_neg hdd]
        exact ⟨h2.1, h2.2.1, h2.2.2⟩
    have h4 : (∀ p, ¬ cachePath outVar cwd <+: p → fs4 p = fs p) ∧
        OutAnc (cachePath outVar cwd) fs4 := by
      by_cases hrn : renameOn = true
      · rw [hf4def, if_pos hrn]
        obtain ⟨c1, c2⟩ := renameStage_po (cachePath outVar cwd) "_final"
          (cachePath outVar cwd) render overwrite fuel classifyOn pattern
          start step r3.2 r3.1 h3.2.1
        exact ⟨fun p hp => (c1 p hp).trans (h3.1 p hp), c2⟩
      · rw [hf4def, if_neg hrn]
        exact ⟨h3.1, h3.2.1⟩
    have h5 : ∀ p, ¬ cachePath outVar cwd <+: p → fs5 p = fs p := by
      by_cases hen : classifyOn = true ∨ convertOn = true ∨ dedupeOn = true ∨
          renameOn = true
      · rw [hf5def, if_pos hen]
        exact h4.1
      · rw [hf5def, if_neg hen]
        intro p hp
        obtain ⟨c1, c2⟩ := copyFilesToFinal_po (cachePath outVar cwd) "_final"
          (cachePath outVar cwd) r3.2 fs4 h4.2
        exact (c1 p hp).trans (h4.1 p hp)
    exact h5 q hq
  refine ⟨main, fun q hq => main q ?_⟩
  intro hRq
  rcases List.prefix_or_prefix_of_prefix hq hRq with h | h
  · exact hd1 h
  · exact hd2 h

def judgeW : Path → Option (List String) := fun _ => some ["16x9"]

def skipJW : Path → Bool := fun _ => false

def convW : Path → Option Nat := fun _ => some 3

def decodeNoneW : Path → Option ImgMeta := fun _ => none

def renderW : Path → Int → String := fun _ _ => "r"

/-- A start state: root, output and input directories exist, one staged
image inside the input tree. -/
def fsC1W : FS := fun p =>
  if p = [] then some .dir
  else if p = ["out"] then some .dir
  else if p = ["in"] then some .dir
  else if p = ["in", "a.png"] then some (.file 5)
  else none

/-- Witness for the preview-isolation theorem: a concrete full run with all
four stages enabled. -/
theorem preview_pipeline_shadow_isolation_witness :
    (OutAnc (cachePath ["out"] []) fsC1W ∧
      ¬ (["in"] : Path) <+: cachePath ["out"] [] ∧
      ¬ cachePath ["out"] [] <+: (["in"] : Path)) ∧
    ((∀ q, ¬ cachePath ["out"] [] <+: q →
      (previewPipeline judgeW skipJW true convW "png" false decodeNoneW "largest"
        "delete" [] 0 renderW "rename" "f" 1 1 true true true true
        ["out"] [] ["in"] 3 [["in", "a.png"]] fsC1W).1 q = fsC1W q) ∧
    (∀ q, (["in"] : Path) <+: q →
      (previewPipeline judgeW skipJW true convW "png" false decodeNoneW "largest"
        "delete" [] 0 renderW "rename" "f" 1 1 true true true true
        ["out"] [] ["in"] 3 [["in", "a.png"]] fsC1W).1 q = fsC1W q)) := by
  have hR : cachePath ["out"] [] = ["out", ".preview_cache"] := by decide
  have hanc : OutAnc (cachePath ["out"] []) fsC1W := by
    have hdec : ∀ q ∈ (["out", ".preview_cache"] : Path).inits,
        q ≠ ["out", ".preview_cache"] → fsC1W q ≠ none := by decide
    intro p hp hne
    rw [hR] at hp hne
    exact hdec p ((List.mem_inits _ _).mpr hp) hne
  have hd1 : ¬ (["in"] : Path) <+: cachePath ["out"] [] := by decide
  have hd2 : ¬ cachePath ["out"] [] <+: (["in"] : Path) := by decide
  obtain ⟨hmain, hin⟩ := preview_pipeline_shadow_isolation judgeW skipJW true convW
    "png" false decodeNoneW "largest" "delete" [] 0 renderW "rename" "f" 1 1
    true true true true ["out"] [] ["in"] 3 [["in", "a.png"]] fsC1W hanc hd1 hd2
  exact ⟨⟨hanc, hd1, hd2⟩, hmain, hin⟩

/-- Python `str.replace` on character lists: replace non-overlapping
occurrences left to right.  The fuel is the remaining length; every step
consumes at least one character, so the initial length is enough. -/
def replaceGo (needle repl : List Char) : Nat → List Char → List Char
  | 0, s => s
  | _ + 1, [] => []
  | fuel + 1, c :: rest =>
    if needle.isPrefixOf (c :: rest) ∧ needle ≠ [] then
      repl ++ replaceGo needle repl fuel ((c :: rest).drop needle.length)
    else c :: replaceGo needle repl fuel rest

def pyReplace (s needle repl : String) : String :=
  String.mk (replaceGo needle.toList repl.toList s.toList.length s.toList)

/-- Python `str.zfill`: left-pad with zeros to the given width, keeping a
leading sign in place. -/
def pyZfill (s : String) (w : Nat) : String :=
  let cs := s.toList
  if w ≤ cs.length then s
  else match cs with
    | '-' :: rest => String.mk ('-' :: (List.replicate (w - cs.length) '0' ++ rest))
    | '+' :: rest => String.mk ('+' :: (List.replicate (w - cs.length) '0' ++ rest))
    | _ => String.mk (List.replicate (w - cs.length) '0' ++ cs)

/-- The name computation of the modular `batch_rename` (rename.py lines
11-27) for patterns without the fixed-width index form, where the regex
substitution is the identity (replacing an absent needle is also the
identity, so the containment guard before the index substitution is
dropped).  The final dot check appends the source extension. -/
def appRenderName (pattern stem ext ratioLabel : String) (idx : Int)
    (padWidth : Nat) : String :=
  let idxStr := if 0 < padWidth then pyZfill (toString idx) padWidth
    else toString idx
  let n1 := pyReplace pattern "{index}" idxStr
  let n2 := pyReplace (pyReplace (pyReplace n1 "{name}" stem) "{ext}" ("." ++ ext))
    "{fmt}" ext
  let n3 := pyReplace n2 "{ratio}" ratioLabel
  if n3.toList.contains '.' then n3 else n3 ++ "." ++ ext

/-- The modular app's `batch_rename` loop (rename.py lines 28-49) in
preview mode: it writes real copies into `out_dir`; preview only changes
the rename-conflict policy to a name suffix and forces `copy2` over
`move`. -/
def appBatchRenameGo (pattern : String) (step : Int) (padWidth : Nat)
    (overwrite : String) (outDir : Path) : List Path → Int → FS → FS
  | [], _, fs => fs
  | f :: rest, idx, fs =>
    if fsIsFile fs f then
      let final := appRenderName pattern (pySplitext (basename f)).1
        (normExt (basename f)) "" idx padWidth
      let dest := outDir ++ [final]
      if dest = f then
        appBatchRenameGo pattern step padWidth overwrite outDir rest (idx + step) fs
      else if fsExists fs dest ∧ overwrite = "skip" then
        appBatchRenameGo pattern step padWidth overwrite outDir rest (idx + step) fs
      else
        let dest2 := if fsExists fs dest ∧ overwrite = "rename" then
            outDir ++ [final ++ "(预览改名)"]
          else dest
        appBatchRenameGo pattern step padWidth overwrite outDir rest (idx + step)
          (copy2 f dest2 fs)
    else appBatchRenameGo pattern step padWidth overwrite outDir rest idx fs

/-- rename.py lines 28-49 (`batch_rename`, preview): empty patterns return
immediately. -/
def appBatchRename (pattern : String) (start step : Int) (padWidth : Nat)
    (overwrite : String) (outDir : Path) (files : List Path) (fs : FS) : FS :=
  if pattern = "" then fs
  else appBatchRenameGo pattern step padWidth overwrite outDir files start fs

/-- `_run` (main_app.py lines 138-163) in preview mode with only the
rename stage enabled: the output directory defaults to the parent
directory of the first input file, is created for real, and the preview
rename then copies into it — the modular app has no shadow workspace. -/
def appRunRenamePreview (outVar : Path) (pattern : String) (start step : Int)
    (padWidth : Nat) (overwrite : String) (cwd : Path) (files : List Path)
    (fs : FS) : FS :=
  let outDir := if outVar = [] then
      (match files with | [] => cwd | f :: _ => f.dropLast)
    else outVar
  let fs1 := mkdirs outDir fs
  appBatchRename pattern start step padWidth overwrite outDir files fs1

/-- Start state for the counterexample: an input tree holding one image. -/
def fsAppW : FS := fun p =>
  if p = [] then some .dir
  else if p = ["in"] then some .dir
  else if p = ["in", "a.png"] then some (.file 7)
  else none

/-- C1 counterexample: in the modular app a preview run of the (enabled)
rename stage creates `in/b.png` inside the input tree — with no output
directory configured, `out_dir` defaults to the input file's own
directory, and the stage's preview branch still performs `shutil.copy2`.
No path of any shadow workspace is involved: the write lands outside any
cache root, mutating the input tree during preview. -/
theorem preview_writes_into_input_tree_counterexample :
    fsAppW ["in", "b.png"] = none ∧
    appRunRenamePreview [] "b" 1 1 0 "overwrite" [] [["in", "a.png"]] fsAppW
      ["in", "b.png"] = some (Entry.file 7) := by
  constructor
  · decide
  · decide
